import Mathlib

/-!
Verification of the parallel chunked log-search engine and the
turn-state reconstruction pipeline of `replay.py`.

The Python source is shallowly embedded: file contents and strings are
`List Char`, byte positions are `Nat`, and code that can raise a Python
exception returns `Except Err`.  The local-time formatting composite
`time.strftime(fmt, time.localtime(float(s)))` is a library call whose
result depends on the ambient timezone, so it is modelled by an
uninterpreted total function `fmt : List Char → List Char` passed as a
parameter; both the key builder and the matcher use the same `fmt`,
matching the source where both call the identical library composite.
`json.loads` applied to a matched payload is likewise modelled by a
decode parameter `dec : List Char → Event`.
-/

set_option maxHeartbeats 1000000

namespace SonOfRobosnake

/-- Python `str.split` with a one-character separator (as in
`line.split('\x5ct')`): every occurrence of `c` splits, empty pieces are
kept, and the empty string yields one empty piece. -/
def splitOnChar (c : Char) : List Char → List (List Char)
  | [] => [[]]
  | a :: as =>
    if a = c then [] :: splitOnChar c as
    else
      match splitOnChar c as with
      | [] => [[a]]
      | h :: t => (a :: h) :: t

/-- Accumulator loop for `splitLines`; `cur` holds the current line
reversed. -/
def splitLinesAux (cur : List Char) : List Char → List (List Char)
  | [] => if cur = [] then [] else [cur.reverse]
  | a :: as =>
    if a = '\n' then cur.reverse :: splitLinesAux [] as
    else splitLinesAux (a :: cur) as

/-- Python `str.splitlines` restricted to the newline character: pieces
are separated by newlines, a trailing newline does not produce a final
empty piece, and the empty string yields no lines. -/
def splitLines (s : List Char) : List (List Char) := splitLinesAux [] s

/-- Number of characters `readline` consumes from the start of the
suffix: up to and including the first newline, or the whole suffix when
it has no newline. -/
def lineLen : List Char → Nat
  | [] => 0
  | a :: as => if a = '\n' then 1 else 1 + lineLen as

/-- File position after `f.readline()` starting at `pos`: a read at or
past end of file consumes nothing, otherwise the position advances to
just past the next newline, or to end of file when the tail has no
newline. -/
def readlineEnd (file : List Char) (pos : Nat) : Nat :=
  if file.length ≤ pos then pos else pos + lineLen (file.drop pos)

/-- Fuel-indexed loop body of `chunkify`: from current position
`chunkEnd`, seek forward by `size`, extend with `readline`, yield
`(chunkStart, chunkEnd - chunkStart)`, and stop once the new end is
strictly past end of file, exactly as the `while True` loop in the
source. -/
def chunkifyAux (file : List Char) (size : Nat) : Nat → Nat → List (Nat × Nat)
  | _, 0 => []
  | chunkEnd, fuel + 1 =>
    let chunkStart := chunkEnd
    let newEnd := readlineEnd file (chunkStart + size)
    (chunkStart, newEnd - chunkStart) ::
      (if file.length < newEnd then [] else chunkifyAux file size newEnd fuel)

/-- `chunkify(fname, size)` from the source: the produced list of
`(chunkStart, chunkSize)` pairs.  For every positive `size` the loop
performs at most `file.length + 2` iterations, so that much fuel makes
the fuel bound irrelevant. -/
def chunkify (file : List Char) (size : Nat) : List (Nat × Nat) :=
  chunkifyAux file size 0 (file.length + 2)

/-- The byte range of a chunk, as `process_wrapper` reads it:
`f.seek(chunkStart); f.read(chunkSize)`. -/
def chunkContent (file : List Char) (c : Nat × Nat) : List Char :=
  (file.drop c.1).take c.2

/-- Ordered concatenation of the byte ranges of a chunk list. -/
def concatChunks (file : List Char) (cs : List (Nat × Nat)) : List Char :=
  (cs.map (chunkContent file)).flatten

/-- Sum of the nominal chunk lengths. -/
def sumLens (cs : List (Nat × Nat)) : Nat := (cs.map Prod.snd).sum

/-- The chunk list is gap-free and non-overlapping starting from `pos`:
each chunk starts where the previous one ended. -/
def consecutiveFrom : Nat → List (Nat × Nat) → Prop
  | _, [] => True
  | pos, c :: rest => c.1 = pos ∧ consecutiveFrom (pos + c.2) rest

deriving instance DecidableEq for Except

/-- Python exceptions that the embedded code can raise: an uncaught
`IndexError` from list indexing, or an explicit `raise Exception(msg)`. -/
inductive Err where
  | indexError : Err
  | fatal : String → Err
deriving DecidableEq

/-- The replay key tuple `(time_utc, game_id, snake_id)` built by
`get_replay_keys`. -/
structure ReplayKey where
  startTime : List Char
  matchId : List Char
  participantId : List Char
deriving DecidableEq

/-- The literal characters of the regex prefix. -/
def luasnakeChars : List Char := String.toList ("luasnake")

/-- The literal characters of the middle of the regex prefix. -/
def infoChars : List Char := String.toList ("info")

/-- Whether the regex `(?:luasnake.info.)(.*)` matches at the head of
`s`: the two unescaped dots of the pattern match any character, and the
trailing `(.*)` matches the whole remaining tail, so a match needs 14
leading characters of the right shape and nothing more. -/
def tagShapeAt (s : List Char) : Bool :=
  decide (14 ≤ s.length) && decide (s.take 8 = luasnakeChars) &&
    decide ((s.drop 9).take 4 = infoChars)

/-- `re.search('(?:luasnake.info.)(.*)', tag)` followed by `.group(0)`:
the leftmost position where the pattern matches, returning the whole
match, which runs from that position to the end of the tag because
`(.*)` is greedy. -/
def reSearchInfo : List Char → Option (List Char)
  | [] => none
  | a :: as => if tagShapeAt (a :: as) then some (a :: as) else reSearchInfo as

/-- The per-line body of the `for line in lines` loop of
`process_wrapper`, for one line: tab-split, regex search on the tag,
colon-split of the full regex match, decode, and comparison with the
key.  Python raises `IndexError` on `splits[1]` or `splits[2]` when the
line has too few tab fields; that is the `.error .indexError` paths. -/
def processLine (fmt : List Char → List Char) (key : ReplayKey)
    (line : List Char) : Except Err (Option (List Char)) :=
  let splits := splitOnChar '\t' line
  match splits[1]?, splits[2]? with
  | some tag, some payload =>
    match reSearchInfo tag with
    | none => .ok none
    | some g =>
      let ks := splitOnChar ':' g
      if ks.length < 3 then .ok none
      else
        match ks[0]?, ks[1]?, ks[2]? with
        | some k0, some k1, some k2 =>
          match k0.getLast? with
          | none => .error .indexError
          | some gid =>
            if k2 = [] then .ok none
            else
              if key.participantId = k1 ∧ key.matchId = [gid] ∧
                  key.startTime = fmt k2 then .ok (some payload)
              else .ok none
        | _, _, _ => .error .indexError
  | _, _ => .error .indexError

/-- The whole line loop of `process_wrapper` with its `result_data`
accumulator: matched payloads are appended in line order, and a raising
line aborts the job. -/
def matchLinesAcc (fmt : List Char → List Char) (key : ReplayKey)
    (acc : List (List Char)) : List (List Char) → Except Err (List (List Char))
  | [] => .ok acc
  | l :: ls =>
    match processLine fmt key l with
    | .error e => .error e
    | .ok none => matchLinesAcc fmt key acc ls
    | .ok (some p) => matchLinesAcc fmt key (acc ++ [p]) ls

/-- `process_wrapper(filename, key, chunkStart, chunkSize)`: seek to the
chunk start, read the chunk, split into lines and scan them. -/
def process_wrapper (fmt : List Char → List Char) (key : ReplayKey)
    (content : List Char) (chunkStart chunkSize : Nat) :
    Except Err (List (List Char)) :=
  matchLinesAcc fmt key [] (splitLines ((content.drop chunkStart).take chunkSize))

/-- The flat job list built by the double loop of `search_log_files`:
for each file in order, one job per chunk in chunk order. -/
def chunkJobsOf (files : List (List Char)) (size : Nat) :
    List (List Char × Nat × Nat) :=
  (files.map (fun content =>
    (chunkify content size).map (fun c => (content, c.1, c.2)))).flatten

/-- The collection loop `for job in jobs: payloads.append(job.get())`:
per-job results are appended in submission order; the first failing job
re-raises its exception in the parent. -/
def collectJobs (fmt : List Char → List Char) (key : ReplayKey) :
    List (List Char × Nat × Nat) → Except Err (List (List (List Char)))
  | [] => .ok []
  | j :: js =>
    match process_wrapper fmt key j.1 j.2.1 j.2.2 with
    | .error e => .error e
    | .ok r =>
      match collectJobs fmt key js with
      | .error e => .error e
      | .ok rs => .ok (r :: rs)

/-- `search_log_files(key)` with the chunk size as a parameter (the
source passes the `chunkify` default of `1024*1024`): fatal when the
glob finds no files, then the flattened submission-order merge. -/
def searchLogFilesSized (fmt : List Char → List Char) (key : ReplayKey)
    (files : List (List Char)) (size : Nat) : Except Err (List (List Char)) :=
  if files = [] then .error (.fatal ("FATAL : Could not find logfiles"))
  else
    match collectJobs fmt key (chunkJobsOf files size) with
    | .error e => .error e
    | .ok rss => .ok rss.flatten

/-- `search_log_files(key)` exactly as in the source, with the default
1 MiB chunk size. -/
def searchLogFiles (fmt : List Char → List Char) (key : ReplayKey)
    (files : List (List Char)) : Except Err (List (List Char)) :=
  searchLogFilesSized fmt key files (1024 * 1024)

/-- Modelled from the spec: the merged payload list "reflects
job-completion order" (section 4.4).  The completion schedule of the
worker pool is not part of the source; given the per-job result lists
in the order the jobs completed, the spec flat list is their
concatenation in that order. -/
def completionOrderMerge (completed : List (List (List Char))) :
    List (List Char) :=
  completed.flatten

/-- A board coordinate from a payload. -/
structure Coord where
  x : Int
  y : Int
deriving DecidableEq

/-- A decoded payload event, the result of `json.loads` on a matched
payload: fields `who`, `item`, `turn`, `coordinates`. -/
structure Event where
  who : String
  item : String
  turn : Nat
  coordinates : Coord
deriving DecidableEq

/-- One snake segment record appended by `transform`. -/
structure Seg where
  object : String
  x : Int
  y : Int
deriving DecidableEq

/-- One snake entry of a turn snapshot. -/
structure Snake where
  id : String
  data : List Seg
  length : Nat
  health : Nat
deriving DecidableEq

/-- One entry of the `turns` list of `transform`. -/
structure Snapshot where
  turn : Nat
  height : Nat
  width : Nat
  snakes : List Snake
  food : List Coord
deriving DecidableEq

/-- The segment record built from an event. -/
def segOf (e : Event) : Seg := ⟨e.item, e.coordinates.x, e.coordinates.y⟩

/-- `snake[0]['data'].append(...)`: append a segment to the first snake
with the given id. -/
def updFirst (who : String) (seg : Seg) : List Snake → List Snake
  | [] => []
  | s :: rest =>
    if s.id = who then ⟨s.id, s.data ++ [seg], s.length, s.health⟩ :: rest
    else s :: updFirst who seg rest

/-- The head/tail/body branch body of `transform`: filter the snakes by
id; when none matches append a fresh snake with placeholder length and
health 99, otherwise append the segment to the first match. -/
def addSnakeEvent (snakes : List Snake) (e : Event) : List Snake :=
  if (snakes.filter (fun s => s.id == e.who)).length = 0 then
    snakes ++ [⟨e.who, [segOf e], 99, 99⟩]
  else updFirst e.who (segOf e) snakes

/-- One iteration of the `for data in data_list` loop of `transform`:
lazily create a snapshot when `len(turns) <= turn`, then dispatch on the
item; the `turns[turn]` subscript raises `IndexError` when `turn` is
still out of range after the (single) append. -/
def transformStep (turns : List Snapshot) (e : Event) :
    Except Err (List Snapshot) :=
  let turns1 :=
    if turns.length ≤ e.turn then turns ++ [⟨e.turn, 10, 10, [], []⟩]
    else turns
  if e.item = ("food") then
    match turns1[e.turn]? with
    | none => .error .indexError
    | some snap =>
      .ok (turns1.set e.turn
        ⟨snap.turn, snap.height, snap.width, snap.snakes,
          snap.food ++ [e.coordinates]⟩)
  else if e.item = ("head") ∨ e.item = ("tail") ∨ e.item = ("body") then
    match turns1[e.turn]? with
    | none => .error .indexError
    | some snap =>
      .ok (turns1.set e.turn
        ⟨snap.turn, snap.height, snap.width, addSnakeEvent snap.snakes e,
          snap.food⟩)
  else .ok turns1

/-- The loop of `transform` folded from an arbitrary starting `turns`
list. -/
def transformFrom : List Snapshot → List Event → Except Err (List Snapshot)
  | ts, [] => .ok ts
  | ts, e :: es =>
    match transformStep ts e with
    | .error er => .error er
    | .ok ts1 => transformFrom ts1 es

/-- `transform(data_list)` from the source, over decoded events. -/
def transform (L : List Event) : Except Err (List Snapshot) :=
  transformFrom [] L

/-- `search_and_return_log_data()` after key selection (key discovery
and the interactive prompt are external collaborators per the spec):
search, the fatal empty-result check, then `transform`; `dec` models
`json.loads` on a payload string. -/
def search_and_return_log_data (fmt : List Char → List Char)
    (dec : List Char → Event) (key : ReplayKey) (files : List (List Char)) :
    Except Err (List Snapshot) :=
  match searchLogFiles fmt key files with
  | .error e => .error e
  | .ok payloads =>
    if payloads.length = 0 then .error (.fatal ("FATAL: No log data found"))
    else transform (payloads.map dec)

/-- The item strings handled by the snake branch of `transform`. -/
def isSnakeItem (it : String) : Bool :=
  it == ("head") || it == ("tail") || it == ("body")

/-- The item strings on which `transform` subscripts `turns[turn]`. -/
def indexingItem (it : String) : Bool := it == ("food") || isSnakeItem it

/-- The snake-branch events of turn `i`, in list order. -/
def relevantAt (L : List Event) (i : Nat) : List Event :=
  L.filter (fun e => isSnakeItem e.item && e.turn == i)

/-- The food coordinates of turn `i`, in list order. -/
def foodAt (L : List Event) (i : Nat) : List Coord :=
  (L.filter (fun e => e.item == ("food") && e.turn == i)).map
    (fun e => e.coordinates)

/-- The snakes list built by folding the snake branch over a list of
events. -/
def snakesOf (es : List Event) : List Snake := es.foldl addSnakeEvent []

/-- The length of the `turns` list after processing `L`, starting from
`n` snapshots: one snapshot is appended whenever `len(turns) <= turn`. -/
def countT : Nat → List Event → Nat
  | n, [] => n
  | n, e :: es => countT (if n ≤ e.turn then n + 1 else n) es

/-- The no-abort precondition of `transform`: at each event, the turn
value is at most the number of snapshots already created. -/
def precondOk : Nat → List Event → Bool
  | _, [] => true
  | n, e :: es => decide (e.turn ≤ n) && precondOk (if n ≤ e.turn then n + 1 else n) es

/-- Closed form of the snapshot that `transform` builds for turn `i`
when it completes without an abort. -/
def specSnapshot (L : List Event) (i : Nat) : Snapshot :=
  ⟨i, 10, 10, snakesOf (relevantAt L i), foodAt L i⟩

/-- Closed form of the whole `turns` list that `transform` returns when
it completes without an abort. -/
def specBuild (L : List Event) : List Snapshot :=
  (List.range (countT 0 L)).map (specSnapshot L)

/-- Ids of the snake-branch events in order of first occurrence. -/
def firstIds : List String → List Event → List String
  | acc, [] => acc
  | acc, e :: es => firstIds (if e.who ∈ acc then acc else acc ++ [e.who]) es

/-- The snake entry the builder ends up with for participant `w` after
folding a list of snake-branch events: all segments of events naming `w`
in processing order, with the placeholder length and health. -/
def snakeFor (es : List Event) (w : String) : Snake :=
  ⟨w, (es.filter (fun e => e.who == w)).map segOf, 99, 99⟩

/-- The payload list a finished `process_wrapper` job returns; a raising
job returns none, taken as the empty list for stating that no payload is
ever produced. -/
def resultPayloads : Except Err (List (List Char)) → List (List Char)
  | .ok l => l
  | .error _ => []

/-- Whether `transform` completed without raising. -/
def isSuccess : Except Err (List Snapshot) → Bool
  | .ok _ => true
  | .error _ => false

/-- The triple the matcher code actually compares: the colon-split is
applied to the full regex match `group(0)`, prefix included, so the
match id is the last character of `"luasnake□info□<first part>"`. -/
def codeDecodeG (fmt : List Char → List Char) (g : List Char) :
    Option (List Char × List Char × List Char) :=
  let ks := splitOnChar ':' g
  match ks[0]?, ks[1]?, ks[2]? with
  | some k0, some k1, some k2 =>
    if k2 = [] then none
    else k0.getLast?.map (fun c => ([c], k1, fmt k2))
  | _, _, _ => none

/-- Modelled from the spec (section 4.2): the decode the spec describes
splits the encoded suffix, i.e. what follows the 14-character prefix
region of the regex match, and reads the match id off part 0 of that
suffix.  Returns `(match id, participant id, formatted time)` for a line
that parses. -/
def specDecodeLine (fmt : List Char → List Char) (line : List Char) :
    Option (List Char × List Char × List Char) :=
  match (splitOnChar '\t' line)[1]? with
  | none => none
  | some tag =>
    match reSearchInfo tag with
    | none => none
    | some g =>
      let ks := splitOnChar ':' (g.drop 14)
      match ks[0]?, ks[1]?, ks[2]? with
      | some k0, some k1, some k2 =>
        if k2 = [] then none
        else k0.getLast?.map (fun c => ([c], k1, fmt k2))
      | _, _, _ => none


/-- Sequential whole-file scan: the line loop applied to all lines of a
file at once (the reference point for chunking-independence). -/
def fileScan (fmt : List Char → List Char) (key : ReplayKey)
    (content : List Char) : Except Err (List (List Char)) :=
  matchLinesAcc fmt key [] (splitLines content)

/-- Sequential multi-file scan, concatenating per-file results in file
order. -/
def filesScan (fmt : List Char → List Char) (key : ReplayKey) :
    List (List Char) → Except Err (List (List Char))
  | [] => .ok []
  | f :: fs =>
    match fileScan fmt key f with
    | .error e => .error e
    | .ok r =>
      match filesScan fmt key fs with
      | .error e => .error e
      | .ok rs => .ok (r ++ rs)


/-! ### Lemmas about lines and `readline` -/

lemma lineLen_pos {l : List Char} (h : l ≠ []) : 0 < lineLen l := by
  cases l with
  | nil => exact absurd rfl h
  | cons a as => simp only [lineLen]; split <;> omega

lemma lineLen_le (l : List Char) : lineLen l ≤ l.length := by
  induction l with
  | nil => simp [lineLen]
  | cons a as ih => simp only [lineLen, List.length_cons]; split <;> omega

lemma lineLen_last (l : List Char) (h : l ≠ []) :
    l[lineLen l - 1]? = some '\n' ∨ lineLen l = l.length := by
  induction l with
  | nil => exact absurd rfl h
  | cons a as ih =>
    by_cases ha : a = '\n'
    · left
      simp [lineLen, ha]
    · cases as with
      | nil => right; simp [lineLen, ha]
      | cons b bs =>
        rcases ih (by simp) with h1 | h1
        · left
          have hp : 0 < lineLen (b :: bs) := lineLen_pos (by simp)
          have he : lineLen (a :: b :: bs) = 1 + lineLen (b :: bs) := by
            simp [lineLen, ha]
          rw [he]
          have hidx : 1 + lineLen (b :: bs) - 1 = (lineLen (b :: bs) - 1) + 1 := by
            omega
          rw [hidx]
          simpa using h1
        · right
          have he : lineLen (a :: b :: bs) = 1 + lineLen (b :: bs) := by
            simp [lineLen, ha]
          rw [he, h1]
          simp only [List.length_cons]
          omega

lemma readlineEnd_ge (file : List Char) (pos : Nat) :
    pos ≤ readlineEnd file pos := by
  unfold readlineEnd; split <;> omega

lemma readlineEnd_aligned (file : List Char) (pos : Nat) :
    file.length ≤ readlineEnd file pos ∨
      file[readlineEnd file pos - 1]? = some '\n' := by
  unfold readlineEnd
  split
  · left; assumption
  · rename_i h
    have hlt : pos < file.length := by omega
    have hne : file.drop pos ≠ [] := by
      intro hc
      have hlen := congrArg List.length hc
      simp [List.length_drop] at hlen
      omega
    rcases lineLen_last (file.drop pos) hne with h1 | h1
    · right
      have hp : 0 < lineLen (file.drop pos) := lineLen_pos hne
      have hidx : pos + lineLen (file.drop pos) - 1 =
          pos + (lineLen (file.drop pos) - 1) := by omega
      rw [hidx, ← List.getElem?_drop]
      exact h1
    · left
      have hl : lineLen (file.drop pos) = file.length - pos := by
        rw [h1, List.length_drop]
      omega

/-! ### Structure of the chunk list -/

lemma chunkifyAux_consecutive (file : List Char) (size : Nat) (hs : 0 < size) :
    ∀ fuel pos, consecutiveFrom pos (chunkifyAux file size pos fuel) := by
  intro fuel
  induction fuel with
  | zero => intro pos; trivial
  | succ n ih =>
    intro pos
    simp only [chunkifyAux]
    refine ⟨rfl, ?_⟩
    have hge : pos + size ≤ readlineEnd file (pos + size) := readlineEnd_ge _ _
    have heq : pos + (readlineEnd file (pos + size) - pos) =
        readlineEnd file (pos + size) := by omega
    rw [heq]
    split
    · trivial
    · exact ih _

lemma chunkifyAux_aligned (file : List Char) (size : Nat) :
    ∀ fuel pos c, c ∈ chunkifyAux file size pos fuel →
      file.length ≤ c.1 + c.2 ∨ file[c.1 + c.2 - 1]? = some '\n' := by
  intro fuel
  induction fuel with
  | zero => intro pos c hc; simp [chunkifyAux] at hc
  | succ n ih =>
    intro pos c hc
    simp only [chunkifyAux, List.mem_cons] at hc
    rcases hc with hc | hc
    · subst hc
      have hge : pos + size ≤ readlineEnd file (pos + size) := readlineEnd_ge _ _
      have heq : pos + (readlineEnd file (pos + size) - pos) =
          readlineEnd file (pos + size) := by omega
      simpa [heq] using readlineEnd_aligned file (pos + size)
    · split at hc
      · simp at hc
      · exact ih _ _ hc

lemma chunkifyAux_starts_le (file : List Char) (size : Nat) :
    ∀ fuel pos, pos ≤ file.length → ∀ c ∈ chunkifyAux file size pos fuel,
      c.1 ≤ file.length := by
  intro fuel
  induction fuel with
  | zero => intro pos _ c hc; simp [chunkifyAux] at hc
  | succ n ih =>
    intro pos hpos c hc
    simp only [chunkifyAux, List.mem_cons] at hc
    rcases hc with hc | hc
    · subst hc; exact hpos
    · split at hc
      · simp at hc
      · rename_i hstop
        exact ih _ (by omega) c hc

lemma chunkifyAux_sum (file : List Char) (size : Nat) (hs : 0 < size) :
    ∀ fuel pos, file.length < pos + fuel →
      file.length < pos + sumLens (chunkifyAux file size pos fuel) := by
  intro fuel
  induction fuel with
  | zero => intro pos h; simpa [chunkifyAux, sumLens] using h
  | succ n ih =>
    intro pos h
    have hge : pos + size ≤ readlineEnd file (pos + size) := readlineEnd_ge _ _
    simp only [chunkifyAux]
    split
    · rename_i hstop
      simp only [sumLens, List.map_cons, List.map_nil, List.sum_cons,
        List.sum_nil]
      omega
    · rename_i hstop
      have hIH := ih (readlineEnd file (pos + size)) (by omega)
      simp only [sumLens, List.map_cons, List.sum_cons] at hIH ⊢
      omega

lemma chunkifyAux_nonfinal_le (file : List Char) (size : Nat) :
    ∀ fuel pos i c, (chunkifyAux file size pos fuel)[i]? = some c →
      i + 1 < (chunkifyAux file size pos fuel).length →
      c.1 + c.2 ≤ file.length := by
  intro fuel
  induction fuel with
  | zero => intro pos i c hc _; simp [chunkifyAux] at hc
  | succ n ih =>
    intro pos i c hc hlt
    simp only [chunkifyAux] at hc hlt
    by_cases hstop : file.length < readlineEnd file (pos + size)
    · rw [if_pos hstop] at hc hlt
      cases i with
      | zero => simp at hlt
      | succ j => simp at hc
    · rw [if_neg hstop] at hc hlt
      cases i with
      | zero =>
        simp only [List.getElem?_cons_zero, Option.some_inj] at hc
        subst hc
        have hge : pos + size ≤ readlineEnd file (pos + size) :=
          readlineEnd_ge _ _
        show pos + (readlineEnd file (pos + size) - pos) ≤ file.length
        omega
      | succ j =>
        simp only [List.getElem?_cons_succ] at hc
        simp only [List.length_cons] at hlt
        exact ih _ j c hc (by omega)

lemma consecutive_ge :
    ∀ (cs : List (Nat × Nat)) (pos : Nat), consecutiveFrom pos cs →
      ∀ c ∈ cs, pos ≤ c.1 := by
  intro cs
  induction cs with
  | nil => intro pos _ c hc; simp at hc
  | cons a rest ih =>
    intro pos hcons c hc
    rcases hcons with ⟨ha, hrest⟩
    rcases List.mem_cons.mp hc with hc | hc
    · subst hc; omega
    · have := ih (pos + a.2) hrest c hc
      omega

lemma concatChunks_eq (file : List Char) :
    ∀ (cs : List (Nat × Nat)) (pos : Nat), consecutiveFrom pos cs →
      file.length ≤ pos + sumLens cs →
      concatChunks file cs = file.drop pos := by
  intro cs
  induction cs with
  | nil =>
    intro pos _ hcov
    simp only [sumLens, List.map_nil, List.sum_nil, Nat.add_zero] at hcov
    simp [concatChunks, List.drop_eq_nil_of_le hcov]
  | cons a rest ih =>
    intro pos hcons hcov
    rcases hcons with ⟨ha, hrest⟩
    have hcov' : file.length ≤ (pos + a.2) + sumLens rest := by
      simp only [sumLens, List.map_cons, List.sum_cons] at hcov
      simp only [sumLens]
      omega
    have hrec := ih (pos + a.2) hrest hcov'
    simp only [concatChunks, List.map_cons, List.flatten_cons] at hrec ⊢
    rw [hrec]
    simp only [chunkContent, ha]
    have hdd : (file.drop pos).drop a.2 = file.drop (pos + a.2) := by
      rw [List.drop_drop, Nat.add_comm]
    rw [← hdd, List.take_append_drop]


/-- Claim C1 (amended): for every file and every positive target chunk
size, the chunks produced by `chunkify` are gap-free, non-overlapping
and line-aligned, their ordered concatenation reproduces the file
exactly once, every chunk starts at or before end of file, and every
chunk except possibly the last ends at or before end of file.  The
amendment: `chunkify` does not stop as soon as the cursor reaches end
of file; because the loop exits only when `chunkEnd > fileEnd`, a chunk
boundary landing exactly at end of file makes it emit one further chunk
that starts at end of file and contains no file content, and only then
stop. -/
theorem chunkify_coverage (file : List Char) (size : Nat) (hs : 0 < size) :
    consecutiveFrom 0 (chunkify file size) ∧
    (∀ c ∈ chunkify file size,
      file.length ≤ c.1 + c.2 ∨ file[c.1 + c.2 - 1]? = some '\n') ∧
    concatChunks file (chunkify file size) = file ∧
    (∀ c ∈ chunkify file size, c.1 ≤ file.length) ∧
    (∀ i c, (chunkify file size)[i]? = some c →
      i + 1 < (chunkify file size).length → c.1 + c.2 ≤ file.length) := by
  have hcons := chunkifyAux_consecutive file size hs (file.length + 2) 0
  have hsum := chunkifyAux_sum file size hs (file.length + 2) 0 (by omega)
  refine ⟨hcons, ?_, ?_, ?_, ?_⟩
  · intro c hc
    exact chunkifyAux_aligned file size (file.length + 2) 0 c hc
  · have hc2 : file.length ≤ 0 + sumLens (chunkify file size) := by
      simp only [chunkify]
      omega
    have := concatChunks_eq file (chunkify file size) 0 hcons hc2
    simpa using this
  · intro c hc
    exact chunkifyAux_starts_le file size (file.length + 2) 0 (by omega) c hc
  · intro i c hc hlt
    exact chunkifyAux_nonfinal_le file size (file.length + 2) 0 i c hc hlt

/-- Claim C1 witness: the coverage part of `chunkify_coverage` evaluated
on a concrete file and chunk size. -/
theorem chunkify_coverage_witness :
    concatChunks (String.toList ("ab\ncd")) (chunkify (String.toList ("ab\ncd")) 3) =
      String.toList ("ab\ncd") :=
  (chunkify_coverage (String.toList ("ab\ncd")) 3 (by decide)).2.2.1

/-- Claim C1 counterexample: with a 2-byte file and chunk size 2, the
first chunk boundary lands exactly at end of file, yet `chunkify` emits
a second chunk `(2, 2)` whose start is end of file, so the planner does
not stop emitting chunks once the cursor has passed end of file landed
exactly there; the claim as stated is false on the code. -/
theorem chunkify_extra_chunk_at_eof :
    chunkify (String.toList ("a\n")) 2 = [(0, 2), (2, 2)] ∧
    (String.toList ("a\n")).length = 2 := by decide


/-! ### Lemmas about the record matcher -/

lemma splitOnChar_ne_nil (c : Char) (s : List Char) : splitOnChar c s ≠ [] := by
  induction s with
  | nil => simp [splitOnChar]
  | cons a as ih =>
    by_cases hac : a = c
    · simp [splitOnChar, hac]
    · cases hsp : splitOnChar c as with
      | nil => exact absurd hsp ih
      | cons p t => simp [splitOnChar, hac, hsp]

lemma splitOnChar_cons_ne (c a : Char) (s : List Char) (hne : a ≠ c) :
    ∃ p t, splitOnChar c (a :: s) = (a :: p) :: t := by
  cases hsp : splitOnChar c s with
  | nil => exact absurd hsp (splitOnChar_ne_nil c s)
  | cons p t => exact ⟨p, t, by simp [splitOnChar, hne, hsp]⟩

lemma reSearchInfo_head {t g : List Char} (h : reSearchInfo t = some g) :
    ∃ tl, g = 'l' :: tl := by
  induction t with
  | nil => simp [reSearchInfo] at h
  | cons a as ih =>
    simp only [reSearchInfo] at h
    split at h
    · rename_i hshape
      obtain rfl : a :: as = g := Option.some.inj h
      simp only [tagShapeAt, Bool.and_eq_true, decide_eq_true_eq] at hshape
      obtain ⟨⟨hlen, htake⟩, _⟩ := hshape
      cases as with
      | nil => simp at hlen
      | cons b bs =>
        simp only [List.take_succ_cons, luasnakeChars] at htake
        have ha : a = 'l' := by
          have := List.head_eq_of_cons_eq htake
          simpa using this
        exact ⟨b :: bs, by rw [ha]⟩
    · exact ih h

lemma getLast?_cons_exists (a : Char) (l : List Char) :
    ∃ x, (a :: l).getLast? = some x := by
  induction l generalizing a with
  | nil => exact ⟨a, rfl⟩
  | cons b bs ih =>
    obtain ⟨x, hx⟩ := ih b
    exact ⟨x, by rw [List.getLast?_cons_cons]; exact hx⟩

lemma processLine_total (fmt : List Char → List Char) (key : ReplayKey)
    (line : List Char) :
    ((splitOnChar '\t' line).length < 3 ∧
      processLine fmt key line = .error Err.indexError) ∨
    (3 ≤ (splitOnChar '\t' line).length ∧
      ∃ v, processLine fmt key line = .ok v) := by
  by_cases hlen : (splitOnChar '\t' line).length < 3
  · left
    refine ⟨hlen, ?_⟩
    have h2 : (splitOnChar '\t' line)[2]? = none :=
      List.getElem?_eq_none (by omega)
    cases h1 : (splitOnChar '\t' line)[1]? <;>
      simp [processLine, h1, h2]
  · right
    push_neg at hlen
    refine ⟨hlen, ?_⟩
    obtain ⟨tag, h1⟩ : ∃ x, (splitOnChar '\t' line)[1]? = some x :=
      ⟨_, List.getElem?_eq_getElem (by omega)⟩
    obtain ⟨payload, h2⟩ : ∃ x, (splitOnChar '\t' line)[2]? = some x :=
      ⟨_, List.getElem?_eq_getElem (by omega)⟩
    cases hre : reSearchInfo tag with
    | none => exact ⟨none, by simp [processLine, h1, h2, hre]⟩
    | some g =>
      by_cases hkl : (splitOnChar ':' g).length < 3
      · exact ⟨none, by simp [processLine, h1, h2, hre, hkl]⟩
      · obtain ⟨p0, t0, hks⟩ : ∃ p t, splitOnChar ':' g = ('l' :: p) :: t := by
          obtain ⟨tl, rfl⟩ := reSearchInfo_head hre
          exact splitOnChar_cons_ne ':' 'l' tl (by decide)
        have hk0 : (splitOnChar ':' g)[0]? = some ('l' :: p0) := by
          rw [hks]; simp
        obtain ⟨k1v, hk1⟩ : ∃ x, (splitOnChar ':' g)[1]? = some x :=
          ⟨_, List.getElem?_eq_getElem (by omega)⟩
        obtain ⟨k2v, hk2⟩ : ∃ x, (splitOnChar ':' g)[2]? = some x :=
          ⟨_, List.getElem?_eq_getElem (by omega)⟩
        obtain ⟨gid, hgid⟩ := getLast?_cons_exists 'l' p0
        by_cases hk2e : k2v = []
        · exact ⟨none, by
            simp [processLine, h1, h2, hre, hkl, hk0, hk1, hk2, hgid, hk2e]⟩
        · by_cases hm : key.participantId = k1v ∧ key.matchId = [gid] ∧
              key.startTime = fmt k2v
          · exact ⟨some payload, by
              simp [processLine, h1, h2, hre, hkl, hk0, hk1, hk2, hgid, hk2e, hm]⟩
          · exact ⟨none, by
              simp [processLine, h1, h2, hre, hkl, hk0, hk1, hk2, hgid, hk2e, hm]⟩

lemma processLine_error_iff (fmt : List Char → List Char) (key : ReplayKey)
    (line : List Char) :
    processLine fmt key line = .error Err.indexError ↔
      (splitOnChar '\t' line).length < 3 := by
  rcases processLine_total fmt key line with ⟨hlt, herr⟩ | ⟨hge, v, hok⟩
  · simp [herr, hlt]
  · rw [hok]
    constructor
    · intro hc; cases hc
    · intro hc; omega

lemma processLine_error_only_index (fmt : List Char → List Char)
    (key : ReplayKey) (line : List Char) (r : Err)
    (h : processLine fmt key line = .error r) : r = Err.indexError := by
  rcases processLine_total fmt key line with ⟨_, herr⟩ | ⟨_, v, hok⟩
  · rw [herr] at h
    exact (Except.error.inj h).symm
  · rw [hok] at h
    cases h


lemma processLine_some_matchid (fmt : List Char → List Char)
    (key : ReplayKey) (line p : List Char)
    (h : processLine fmt key line = .ok (some p)) :
    key.matchId.length = 1 := by
  by_cases hlen : (splitOnChar '\t' line).length < 3
  · rcases processLine_total fmt key line with ⟨_, herr⟩ | ⟨hge, v, hok⟩
    · rw [herr] at h
      exact Except.noConfusion h
    · omega
  · push_neg at hlen
    obtain ⟨tag, h1⟩ : ∃ x, (splitOnChar '\t' line)[1]? = some x :=
      ⟨_, List.getElem?_eq_getElem (by omega)⟩
    obtain ⟨payload, h2⟩ : ∃ x, (splitOnChar '\t' line)[2]? = some x :=
      ⟨_, List.getElem?_eq_getElem (by omega)⟩
    cases hre : reSearchInfo tag with
    | none => simp [processLine, h1, h2, hre] at h
    | some g =>
      by_cases hkl : (splitOnChar ':' g).length < 3
      · simp [processLine, h1, h2, hre, hkl] at h
      · obtain ⟨p0, t0, hks⟩ : ∃ p t, splitOnChar ':' g = ('l' :: p) :: t := by
          obtain ⟨tl, rfl⟩ := reSearchInfo_head hre
          exact splitOnChar_cons_ne ':' 'l' tl (by decide)
        have hk0 : (splitOnChar ':' g)[0]? = some ('l' :: p0) := by
          rw [hks]; simp
        obtain ⟨k1v, hk1⟩ : ∃ x, (splitOnChar ':' g)[1]? = some x :=
          ⟨_, List.getElem?_eq_getElem (by omega)⟩
        obtain ⟨k2v, hk2⟩ : ∃ x, (splitOnChar ':' g)[2]? = some x :=
          ⟨_, List.getElem?_eq_getElem (by omega)⟩
        obtain ⟨gid, hgid⟩ := getLast?_cons_exists 'l' p0
        by_cases hk2e : k2v = []
        · simp [processLine, h1, h2, hre, hkl, hk0, hk1, hk2, hgid, hk2e] at h
        · by_cases hm : key.participantId = k1v ∧ key.matchId = [gid] ∧
              key.startTime = fmt k2v
          · rw [hm.2.1]
            rfl
          · simp [processLine, h1, h2, hre, hkl, hk0, hk1, hk2, hgid, hk2e,
              hm] at h

lemma matchLinesAcc_no_match (fmt : List Char → List Char) (key : ReplayKey)
    (hk : key.matchId.length ≠ 1) :
    ∀ (lines : List (List Char)) (acc : List (List Char)),
      matchLinesAcc fmt key acc lines = .ok acc ∨
        ∃ e, matchLinesAcc fmt key acc lines = .error e := by
  intro lines
  induction lines with
  | nil => intro acc; left; rfl
  | cons l ls ih =>
    intro acc
    cases hpl : processLine fmt key l with
    | error e =>
      right
      exact ⟨e, by simp [matchLinesAcc, hpl]⟩
    | ok r =>
      cases r with
      | none =>
        rcases ih acc with hok | ⟨e, herr⟩
        · left
          simp [matchLinesAcc, hpl, hok]
        · right
          exact ⟨e, by simp [matchLinesAcc, hpl, herr]⟩
      | some p =>
        exact absurd (processLine_some_matchid fmt key l p hpl) hk

/-- Claim C10: for every chunk of every file and every replay key whose
match id is not a single character, `process_wrapper` never produces a
payload: the decoded match id is always the single last character of the
first colon-separated part, so equality with a multi-character match id
cannot hold; the job returns the empty list when it returns at all. -/
theorem process_wrapper_multichar_matchid (fmt : List Char → List Char)
    (key : ReplayKey) (content : List Char) (chunkStart chunkSize : Nat)
    (hk : key.matchId.length ≠ 1) :
    resultPayloads (process_wrapper fmt key content chunkStart chunkSize) = [] := by
  unfold process_wrapper
  rcases matchLinesAcc_no_match fmt key hk
      (splitLines ((content.drop chunkStart).take chunkSize)) [] with hok | ⟨e, herr⟩
  · rw [hok]; rfl
  · rw [herr]; rfl

/-- Claim C10 witness: a chunk containing a line that would match the
key `("99", "3", "7")` yields nothing for the two-character match id
`"33"`. -/
theorem process_wrapper_multichar_matchid_witness :
    resultPayloads (process_wrapper (fun s => s)
      ⟨String.toList ("99"), String.toList ("33"), String.toList ("7")⟩
      (String.toList ("T\tluasnake.info.3:7:99\tPP\n")) 0 64) = [] :=
  process_wrapper_multichar_matchid _ _ _ _ _ (by decide)

/-- Claim C3 (amended): the per-line step silently discards, with no
error, every line whose tag lacks the prefix shape, whose encoded part
count is below 3, or whose timestamp part is empty; but a line with
fewer than 3 tab-separated fields raises an index error, and that is the
only error the step can raise.  The amendment: the claim as stated says
a line with fewer than 3 tab fields is also silently discarded, which is
false (the code subscripts `splits[1]` and `splits[2]` unguarded). -/
theorem processLine_failure_modes (fmt : List Char → List Char)
    (key : ReplayKey) (line : List Char) :
    (processLine fmt key line = .error Err.indexError ↔
      (splitOnChar '\t' line).length < 3) ∧
    (∀ r, processLine fmt key line = .error r → r = Err.indexError) ∧
    (∀ tag, (splitOnChar '\t' line)[1]? = some tag →
      3 ≤ (splitOnChar '\t' line).length →
      (reSearchInfo tag = none ∨
        (∀ g, reSearchInfo tag = some g →
          (splitOnChar ':' g).length < 3 ∨ (splitOnChar ':' g)[2]? = some [])) →
      processLine fmt key line = .ok none) := by
  refine ⟨processLine_error_iff fmt key line,
    fun r h => processLine_error_only_index fmt key line r h, ?_⟩
  intro tag h1 hlen hdef
  obtain ⟨payload, h2⟩ : ∃ x, (splitOnChar '\t' line)[2]? = some x :=
    ⟨_, List.getElem?_eq_getElem (by omega)⟩
  rcases hdef with hre | hdef
  · simp [processLine, h1, h2, hre]
  · cases hre : reSearchInfo tag with
    | none => simp [processLine, h1, h2, hre]
    | some g =>
      rcases hdef g hre with hkl | hts
      · simp [processLine, h1, h2, hre, hkl]
      · have hkl : ¬(splitOnChar ':' g).length < 3 := by
          intro hc
          have := List.getElem?_eq_none (l := splitOnChar ':' g)
            (n := 2) (by omega)
          rw [this] at hts
          exact Option.noConfusion hts
        obtain ⟨p0, t0, hks⟩ : ∃ p t, splitOnChar ':' g = ('l' :: p) :: t := by
          obtain ⟨tl, rfl⟩ := reSearchInfo_head hre
          exact splitOnChar_cons_ne ':' 'l' tl (by decide)
        have hk0 : (splitOnChar ':' g)[0]? = some ('l' :: p0) := by
          rw [hks]; simp
        obtain ⟨k1v, hk1⟩ : ∃ x, (splitOnChar ':' g)[1]? = some x :=
          ⟨_, List.getElem?_eq_getElem (by omega)⟩
        obtain ⟨gid, hgid⟩ := getLast?_cons_exists 'l' p0
        simp [processLine, h1, h2, hre, hkl, hk0, hk1, hts, hgid]

/-- Claim C3 witness: a 3-field line whose tag lacks the prefix shape is
discarded without an error. -/
theorem processLine_failure_modes_witness :
    processLine (fun s => s)
      ⟨String.toList ("99"), String.toList ("3"), String.toList ("7")⟩
      (String.toList ("a\tb\tc")) = .ok none :=
  (processLine_failure_modes _ _ _).2.2 (String.toList ("b")) (by decide)
    (by decide) (Or.inl (by decide))

/-- Claim C3 counterexample: the empty line splits into one tab field,
and the per-line step raises an index error on it instead of silently
discarding it, so the claim that the step never raises is false on the
code. -/
theorem processLine_raises_on_short_line :
    processLine (fun s => s)
      ⟨String.toList ("99"), String.toList ("3"), String.toList ("7")⟩ [] =
      .error Err.indexError := by decide


/-- Claim C2 (amended): for every line that parses (at least 3 tab
fields, tag containing the prefix pattern, at least 3 colon-separated
parts of the regex match, non-empty timestamp part), the matcher returns
the payload exactly when the decoded triple equals the key, and nothing
otherwise.  The amendment: the code splits the full regex match
`group(0)`, prefix included, on colons, not the encoded suffix after the
prefix, so the decoded triple is `codeDecodeG` (match id = last
character of `"luasnake□info□<first part>"`); when the first part of
the suffix is non-empty and the two wildcard positions of the prefix are
not colons the two decodes agree, otherwise only `codeDecodeG` describes
the code. -/
theorem processLine_match_correct (fmt : List Char → List Char)
    (key : ReplayKey) (line tag payload g : List Char)
    (h1 : (splitOnChar '\t' line)[1]? = some tag)
    (h2 : (splitOnChar '\t' line)[2]? = some payload)
    (h3 : reSearchInfo tag = some g)
    (h4 : 3 ≤ (splitOnChar ':' g).length)
    (h5 : (splitOnChar ':' g)[2]? ≠ some []) :
    processLine fmt key line =
      .ok (if codeDecodeG fmt g =
          some (key.matchId, key.participantId, key.startTime)
        then some payload else none) := by
  have hkl : ¬(splitOnChar ':' g).length < 3 := by omega
  obtain ⟨p0, t0, hks⟩ : ∃ p t, splitOnChar ':' g = ('l' :: p) :: t := by
    obtain ⟨tl, rfl⟩ := reSearchInfo_head h3
    exact splitOnChar_cons_ne ':' 'l' tl (by decide)
  have hk0 : (splitOnChar ':' g)[0]? = some ('l' :: p0) := by
    rw [hks]; simp
  obtain ⟨k1v, hk1⟩ : ∃ x, (splitOnChar ':' g)[1]? = some x :=
    ⟨_, List.getElem?_eq_getElem (by omega)⟩
  obtain ⟨k2v, hk2⟩ : ∃ x, (splitOnChar ':' g)[2]? = some x :=
    ⟨_, List.getElem?_eq_getElem (by omega)⟩
  obtain ⟨gid, hgid⟩ := getLast?_cons_exists 'l' p0
  have hk2e : k2v ≠ [] := by
    intro hc
    rw [hc] at hk2
    exact h5 hk2
  by_cases hm : key.participantId = k1v ∧ key.matchId = [gid] ∧
      key.startTime = fmt k2v
  · have hcond : codeDecodeG fmt g =
        some (key.matchId, key.participantId, key.startTime) := by
      simp only [codeDecodeG, hk0, hk1, hk2, if_neg hk2e, hgid,
        Option.map_some']
      rw [hm.1, hm.2.1, hm.2.2]
    simp [processLine, h1, h2, h3, hkl, hk0, hk1, hk2, hgid, hk2e, hm, hcond]
  · have hcond : ¬(codeDecodeG fmt g =
        some (key.matchId, key.participantId, key.startTime)) := by
      simp only [codeDecodeG, hk0, hk1, hk2, if_neg hk2e, hgid,
        Option.map_some', Option.some.injEq, Prod.mk.injEq]
      intro hc
      exact hm ⟨hc.2.1.symm, hc.1.symm, hc.2.2.symm⟩
    simp [processLine, h1, h2, h3, hkl, hk0, hk1, hk2, hgid, hk2e, hm, hcond]

/-- Claim C2 witness: a well-formed line whose decoded triple equals the
key `("99", "3", "7")` (with the identity in place of the local-time
formatter) yields its payload. -/
theorem processLine_match_correct_witness :
    processLine (fun s => s)
      ⟨String.toList ("99"), String.toList ("3"), String.toList ("7")⟩
      (String.toList ("T\tluasnake.info.3:7:99\tPP")) =
      .ok (some (String.toList ("PP"))) := by
  have h := processLine_match_correct (fun s => s)
    ⟨String.toList ("99"), String.toList ("3"), String.toList ("7")⟩
    (String.toList ("T\tluasnake.info.3:7:99\tPP"))
    (String.toList ("luasnake.info.3:7:99")) (String.toList ("PP"))
    (String.toList ("luasnake.info.3:7:99"))
    (by decide) (by decide) (by decide) (by decide) (by decide)
  rw [h]
  decide

/-- Claim C2 counterexample: in the tag
`"luasnake:info.3:7:99"` the regex prefix matches with its first
wildcard dot matching a colon, the encoded suffix after the prefix is
`"3:7:99"`, and its decoded triple `("3", "7", "99")` equals the key
`("99", "3", "7")` (identity formatter); the claim says the matcher
returns the payload, but the code, splitting the full `group(0)` on
colons, compares the triple `("e", "info.3", "7")` and returns
nothing. -/
theorem processLine_spec_decode_mismatch :
    processLine (fun s => s)
      ⟨String.toList ("99"), String.toList ("3"), String.toList ("7")⟩
      (String.toList ("T\tluasnake:info.3:7:99\tPP")) = .ok none ∧
    specDecodeLine (fun s => s)
      (String.toList ("T\tluasnake:info.3:7:99\tPP")) =
      some (String.toList ("3"), String.toList ("7"), String.toList ("99")) := by
  decide


/-! ### Chunking is invisible to the line scan -/

lemma splitLinesAux_cons_nl (cur as : List Char) :
    splitLinesAux cur ('\n' :: as) = cur.reverse :: splitLinesAux [] as := by
  simp [splitLinesAux]

lemma splitLinesAux_cons_ne (cur : List Char) (a : Char) (as : List Char)
    (h : a ≠ '\n') :
    splitLinesAux cur (a :: as) = splitLinesAux (a :: cur) as := by
  simp [splitLinesAux, h]

lemma splitLinesAux_append (B : List Char) :
    ∀ (A : List Char) (cur : List Char), A.getLast? = some '\n' →
      splitLinesAux cur (A ++ B) = splitLinesAux cur A ++ splitLines B := by
  intro A
  induction A with
  | nil => intro cur h; simp at h
  | cons a as ih =>
    intro cur hlast
    cases as with
    | nil =>
      have ha : a = '\n' := by simpa using hlast
      subst ha
      simp [splitLinesAux, splitLines]
    | cons b bs =>
      rw [List.getLast?_cons_cons] at hlast
      by_cases hae : a = '\n'
      · subst hae
        rw [List.cons_append, splitLinesAux_cons_nl, splitLinesAux_cons_nl,
          ih [] hlast, List.cons_append]
      · rw [List.cons_append, splitLinesAux_cons_ne _ _ _ hae,
          splitLinesAux_cons_ne _ _ _ hae]
        exact ih (a :: cur) hlast

lemma splitLines_append (A B : List Char) (h : A.getLast? = some '\n') :
    splitLines (A ++ B) = splitLines A ++ splitLines B :=
  splitLinesAux_append B A [] h

lemma chunks_lines (file : List Char) :
    ∀ (cs : List (Nat × Nat)) (pos : Nat), consecutiveFrom pos cs →
      (∀ c ∈ cs, file.length ≤ c.1 + c.2 ∨ file[c.1 + c.2 - 1]? = some '\n') →
      file.length ≤ pos + sumLens cs →
      (cs.map (fun c => splitLines (chunkContent file c))).flatten =
        splitLines (file.drop pos) := by
  intro cs
  induction cs with
  | nil =>
    intro pos _ _ hcov
    simp only [sumLens, List.map_nil, List.sum_nil, Nat.add_zero] at hcov
    simp [List.drop_eq_nil_of_le hcov, splitLines, splitLinesAux]
  | cons a rest ih =>
    intro pos hcons hal hcov
    rcases hcons with ⟨ha, hrest⟩
    have hcov' : file.length ≤ (pos + a.2) + sumLens rest := by
      simp only [sumLens, List.map_cons, List.sum_cons] at hcov
      simp only [sumLens]
      omega
    simp only [List.map_cons, List.flatten_cons]
    by_cases hend : file.length ≤ pos + a.2
    · have hcontent : chunkContent file a = file.drop pos := by
        simp only [chunkContent, ha]
        apply List.take_of_length_le
        simp only [List.length_drop]
        omega
      have hrestnil :
          (rest.map (fun c => splitLines (chunkContent file c))).flatten = [] := by
        apply List.flatten_eq_nil_iff.mpr
        intro x hx
        obtain ⟨c, hc, rfl⟩ := List.mem_map.mp hx
        have hge : pos + a.2 ≤ c.1 := consecutive_ge rest (pos + a.2) hrest c hc
        have hnilc : chunkContent file c = [] := by
          simp only [chunkContent]
          rw [List.drop_eq_nil_of_le (by omega), List.take_nil]
        rw [hnilc]
        rfl
      rw [hcontent, hrestnil, List.append_nil]
    · push_neg at hend
      rcases Nat.eq_zero_or_pos a.2 with hz | hpos2
      · have hcontent : chunkContent file a = [] := by
          simp [chunkContent, hz]
        have hpp : pos + a.2 = pos := by omega
        rw [hcontent]
        have hrest' : consecutiveFrom pos rest := by rwa [hpp] at hrest
        have hcov'' : file.length ≤ pos + sumLens rest := by rwa [hpp] at hcov'
        rw [show splitLines ([] : List Char) = [] from rfl, List.nil_append]
        exact ih pos hrest' (fun c hc => hal c (List.mem_cons_of_mem _ hc)) hcov''
      · have hln : file[pos + a.2 - 1]? = some '\n' := by
          rcases hal a (List.mem_cons_self a rest) with h | h
          · rw [ha] at h; omega
          · rwa [ha] at h
        have hlen_content : (chunkContent file a).length = a.2 := by
          simp only [chunkContent, ha, List.length_take, List.length_drop]
          omega
        have hlast_content : (chunkContent file a).getLast? = some '\n' := by
          rw [List.getLast?_eq_getElem?, hlen_content]
          simp only [chunkContent, ha]
          rw [List.getElem?_take_of_lt (by omega), List.getElem?_drop]
          have hidx : pos + (a.2 - 1) = pos + a.2 - 1 := by omega
          rw [hidx]
          exact hln
        have hsplit : file.drop pos = chunkContent file a ++ file.drop (pos + a.2) := by
          simp only [chunkContent, ha]
          have hdd : (file.drop pos).drop a.2 = file.drop (pos + a.2) := by
            rw [List.drop_drop, Nat.add_comm]
          rw [← hdd, List.take_append_drop]
        rw [hsplit, splitLines_append _ _ hlast_content]
        congr 1
        exact ih (pos + a.2) hrest
          (fun c hc => hal c (List.mem_cons_of_mem _ hc)) hcov'

lemma matchLinesAcc_append (fmt : List Char → List Char) (key : ReplayKey) :
    ∀ (L1 L2 : List (List Char)) (acc : List (List Char)),
      matchLinesAcc fmt key acc (L1 ++ L2) =
        match matchLinesAcc fmt key acc L1 with
        | .error e => .error e
        | .ok r => matchLinesAcc fmt key r L2 := by
  intro L1
  induction L1 with
  | nil => intro L2 acc; rfl
  | cons l ls ih =>
    intro L2 acc
    cases hpl : processLine fmt key l with
    | error e => simp [matchLinesAcc, hpl]
    | ok r =>
      cases r with
      | none =>
        simp only [List.cons_append, matchLinesAcc, hpl]
        exact ih L2 acc
      | some p =>
        simp only [List.cons_append, matchLinesAcc, hpl]
        exact ih L2 (acc ++ [p])

lemma matchLinesAcc_acc (fmt : List Char → List Char) (key : ReplayKey) :
    ∀ (L : List (List Char)) (acc : List (List Char)),
      matchLinesAcc fmt key acc L =
        match matchLinesAcc fmt key [] L with
        | .error e => .error e
        | .ok r => .ok (acc ++ r) := by
  intro L
  induction L with
  | nil => intro acc; simp [matchLinesAcc]
  | cons l ls ih =>
    intro acc
    cases hpl : processLine fmt key l with
    | error e => simp [matchLinesAcc, hpl]
    | ok r =>
      cases r with
      | none =>
        simp only [matchLinesAcc, hpl]
        exact ih acc
      | some p =>
        simp only [matchLinesAcc, hpl]
        rw [ih (acc ++ [p]), ih ([] ++ [p])]
        cases matchLinesAcc fmt key [] ls with
        | error e => rfl
        | ok r => simp

lemma collectJobs_append (fmt : List Char → List Char) (key : ReplayKey) :
    ∀ (j1 j2 : List (List Char × Nat × Nat)),
      collectJobs fmt key (j1 ++ j2) =
        match collectJobs fmt key j1 with
        | .error e => .error e
        | .ok r1 =>
          match collectJobs fmt key j2 with
          | .error e => .error e
          | .ok r2 => .ok (r1 ++ r2) := by
  intro j1
  induction j1 with
  | nil =>
    intro j2
    cases h : collectJobs fmt key j2 <;> simp [collectJobs, h]
  | cons j js ih =>
    intro j2
    cases hw : process_wrapper fmt key j.1 j.2.1 j.2.2 with
    | error e => simp [collectJobs, hw]
    | ok r =>
      simp only [List.cons_append, collectJobs, hw, List.append_eq]
      rw [ih j2]
      cases h1 : collectJobs fmt key js <;>
        cases h2 : collectJobs fmt key j2 <;> simp [h1, h2]

lemma collect_chunks_flatten (fmt : List Char → List Char) (key : ReplayKey)
    (content : List Char) :
    ∀ (cs : List (Nat × Nat)),
      (match collectJobs fmt key (cs.map fun c => (content, c.1, c.2)) with
       | .error e => (.error e : Except Err (List (List Char)))
       | .ok rss => .ok rss.flatten) =
      matchLinesAcc fmt key []
        ((cs.map (fun c => splitLines (chunkContent content c))).flatten) := by
  intro cs
  induction cs with
  | nil => rfl
  | cons c rest ih =>
    simp only [List.map_cons, List.flatten_cons, collectJobs]
    have hpw : process_wrapper fmt key content c.1 c.2 =
        matchLinesAcc fmt key [] (splitLines (chunkContent content c)) := rfl
    rw [matchLinesAcc_append]
    cases hx : matchLinesAcc fmt key [] (splitLines (chunkContent content c)) with
    | error e =>
      rw [hpw, hx]
    | ok r =>
      rw [hpw, hx]
      dsimp only
      rw [matchLinesAcc_acc fmt key _ r]
      cases hrest : collectJobs fmt key
          (List.map (fun c => (content, c.1, c.2)) rest) with
      | error e =>
        dsimp only at ih ⊢
        rw [← ih, hrest]
      | ok rss =>
        dsimp only at ih ⊢
        rw [← ih, hrest]
        simp

lemma collect_file_eq (fmt : List Char → List Char) (key : ReplayKey)
    (content : List Char) (size : Nat) (hs : 0 < size) :
    (match collectJobs fmt key
        ((chunkify content size).map fun c => (content, c.1, c.2)) with
     | .error e => (.error e : Except Err (List (List Char)))
     | .ok rss => .ok rss.flatten) = fileScan fmt key content := by
  rw [collect_chunks_flatten]
  have hcons := chunkifyAux_consecutive content size hs (content.length + 2) 0
  have hsum := chunkifyAux_sum content size hs (content.length + 2) 0 (by omega)
  have hcover : content.length ≤ 0 + sumLens (chunkify content size) := by
    simp only [chunkify]
    omega
  have hlines := chunks_lines content (chunkify content size) 0 hcons
    (fun c hc => chunkifyAux_aligned content size (content.length + 2) 0 c hc)
    hcover
  rw [hlines, List.drop_zero]
  rfl

lemma searchCore_eq (fmt : List Char → List Char) (key : ReplayKey)
    (size : Nat) (hs : 0 < size) :
    ∀ files, (match collectJobs fmt key (chunkJobsOf files size) with
      | .error e => (.error e : Except Err (List (List Char)))
      | .ok rss => .ok rss.flatten) = filesScan fmt key files := by
  intro files
  induction files with
  | nil => rfl
  | cons f fs ih =>
    have hsplit : chunkJobsOf (f :: fs) size =
        ((chunkify f size).map fun c => (f, c.1, c.2)) ++ chunkJobsOf fs size := by
      simp [chunkJobsOf]
    rw [hsplit, collectJobs_append]
    have hfile := collect_file_eq fmt key f size hs
    simp only [filesScan]
    cases h1 : collectJobs fmt key ((chunkify f size).map fun c => (f, c.1, c.2)) with
    | error e =>
      rw [h1] at hfile
      simp only at hfile
      rw [← hfile]
    | ok r1 =>
      rw [h1] at hfile
      simp only at hfile
      rw [← hfile]
      cases h2 : collectJobs fmt key (chunkJobsOf fs size) with
      | error e =>
        rw [h2] at ih
        simp only at ih
        rw [← ih]
      | ok r2 =>
        rw [h2] at ih
        simp only at ih
        rw [← ih]
        simp [List.flatten_append]

lemma searchLogFilesSized_eq (fmt : List Char → List Char) (key : ReplayKey)
    (files : List (List Char)) (size : Nat) (hs : 0 < size) :
    searchLogFilesSized fmt key files size =
      if files = [] then .error (.fatal ("FATAL : Could not find logfiles"))
      else filesScan fmt key files := by
  by_cases hf : files = []
  · simp [searchLogFilesSized, hf]
  · rw [if_neg hf]
    simp only [searchLogFilesSized, if_neg hf]
    exact searchCore_eq fmt key size hs files


/-- Claim C7: for the same input files and key, the search returns the
same result for any two (positive) chunk sizes used to split the files:
not merely the same multiset of matched payloads, but the identical
flat list, each size yielding the sequential whole-file scan in file,
chunk and line order.  Worker count does not appear in the result: each
job is a pure function of its arguments, so the pool size cannot affect
the collected values. -/
theorem search_chunk_size_irrelevant (fmt : List Char → List Char)
    (key : ReplayKey) (files : List (List Char)) (s1 s2 : Nat)
    (h1 : 0 < s1) (h2 : 0 < s2) :
    searchLogFilesSized fmt key files s1 = searchLogFilesSized fmt key files s2 := by
  rw [searchLogFilesSized_eq fmt key files s1 h1,
    searchLogFilesSized_eq fmt key files s2 h2]

/-- Claim C7 witness: chunk sizes 1 and 4 give the same search result on
a concrete two-line file. -/
theorem search_chunk_size_irrelevant_witness :
    searchLogFilesSized (fun s => s)
      ⟨String.toList ("99"), String.toList ("3"), String.toList ("7")⟩
      [String.toList ("T\tluasnake.info.3:7:99\tP0\nT\tluasnake.info.3:7:99\tP1\n")] 1 =
    searchLogFilesSized (fun s => s)
      ⟨String.toList ("99"), String.toList ("3"), String.toList ("7")⟩
      [String.toList ("T\tluasnake.info.3:7:99\tP0\nT\tluasnake.info.3:7:99\tP1\n")] 4 :=
  search_chunk_size_irrelevant _ _ _ 1 4 (by decide) (by decide)

/-- Claim C6 (amended): the flat merged payload list of
`search_log_files` is in deterministic submission order (files in the
given order, chunks in increasing offset order, matches in line order):
the collection loop appends `job.get()` in the order the jobs were
submitted, not in completion order.  Any completion-order arrangement of
the per-job results is merely a permutation of the code flat list, so a
consumer relying only on the `turn` field inside each payload is
unaffected. -/
theorem search_submission_order (fmt : List Char → List Char)
    (key : ReplayKey) (files : List (List Char)) (L : List (List Char))
    (rss completed : List (List (List Char)))
    (hok : searchLogFiles fmt key files = .ok L)
    (hrss : collectJobs fmt key (chunkJobsOf files (1024 * 1024)) = .ok rss)
    (hperm : completed.Perm rss) :
    L = rss.flatten ∧ (completionOrderMerge completed).Perm L := by
  have hne : files ≠ [] := by
    intro h
    rw [h] at hok
    simp [searchLogFiles, searchLogFilesSized] at hok
  simp only [searchLogFiles, searchLogFilesSized, if_neg hne, hrss] at hok
  obtain rfl : rss.flatten = L := Except.ok.inj hok
  exact ⟨rfl, by simpa [completionOrderMerge] using hperm.flatten⟩

/-- Claim C6 witness: two one-chunk files with payloads P0 and P1; the
code list is `[P0, P1]` and the reversed completion order merges to a
permutation of it. -/
theorem search_submission_order_witness :
    (([String.toList ("P0"), String.toList ("P1")] : List (List Char)) =
      ([[String.toList ("P0")], [String.toList ("P1")]] :
        List (List (List Char))).flatten) ∧
    (completionOrderMerge [[String.toList ("P1")], [String.toList ("P0")]]).Perm
      [String.toList ("P0"), String.toList ("P1")] :=
  search_submission_order (fun s => s)
    ⟨String.toList ("99"), String.toList ("3"), String.toList ("7")⟩
    [String.toList ("T\tluasnake.info.3:7:99\tP0\n"),
      String.toList ("T\tluasnake.info.3:7:99\tP1\n")]
    [String.toList ("P0"), String.toList ("P1")]
    [[String.toList ("P0")], [String.toList ("P1")]]
    [[String.toList ("P1")], [String.toList ("P0")]]
    (by decide) (by decide) (by decide)

/-- Claim C6 counterexample: on two files whose single jobs return P0
and P1, the code flat list is `[P0, P1]` (submission order) for every
run, while the completion-order merge under the schedule that finishes
the second job first is `[P1, P0]`; the two differ, so the flat list
does not reflect job-completion order, and it is a deterministic
function of the inputs. -/
theorem search_not_completion_order :
    searchLogFiles (fun s => s)
      ⟨String.toList ("99"), String.toList ("3"), String.toList ("7")⟩
      [String.toList ("T\tluasnake.info.3:7:99\tP0\n"),
        String.toList ("T\tluasnake.info.3:7:99\tP1\n")] =
      .ok [String.toList ("P0"), String.toList ("P1")] ∧
    completionOrderMerge [[String.toList ("P1")], [String.toList ("P0")]] =
      [String.toList ("P1"), String.toList ("P0")] ∧
    ([String.toList ("P0"), String.toList ("P1")] : List (List Char)) ≠
      [String.toList ("P1"), String.toList ("P0")] := by
  decide

/-- Claim C8 (amended): the two explicit fatal conditions of the search
subsystem abort with distinct messages: an empty file list raises
`FATAL : Could not find logfiles` in `search_log_files`, and an empty
merged payload list raises `FATAL: No log data found` in
`search_and_return_log_data`; tag-shape, part-count and empty-timestamp
line defects are non-fatal.  The amendment: not all per-line failures
are non-fatal — a line with fewer than 3 tab fields raises an
IndexError inside the worker, which propagates through `job.get()` and
aborts the search as a third fatal condition. -/
theorem search_fatal_conditions (fmt : List Char → List Char)
    (dec : List Char → Event) (key : ReplayKey) (files : List (List Char)) :
    (files = [] → search_and_return_log_data fmt dec key files =
      .error (.fatal ("FATAL : Could not find logfiles"))) ∧
    (searchLogFiles fmt key files = .ok [] →
      search_and_return_log_data fmt dec key files =
        .error (.fatal ("FATAL: No log data found"))) ∧
    (Err.fatal ("FATAL : Could not find logfiles") ≠
      Err.fatal ("FATAL: No log data found")) ∧
    (∀ line r, 3 ≤ (splitOnChar '\t' line).length →
      processLine fmt key line = .error r → False) := by
  refine ⟨?_, ?_, by decide, ?_⟩
  · intro hf
    simp [search_and_return_log_data, searchLogFiles, searchLogFilesSized, hf]
  · intro hok
    simp [search_and_return_log_data, hok]
  · intro line r hlen herr
    rcases processLine_total fmt key line with ⟨hlt, _⟩ | ⟨_, v, hokv⟩
    · omega
    · rw [hokv] at herr
      exact Except.noConfusion herr

/-- Claim C8 witness: the no-files fatal condition evaluated on the
empty file list. -/
theorem search_fatal_conditions_witness :
    search_and_return_log_data (fun s => s) (fun _ => ⟨"", "", 0, ⟨0, 0⟩⟩)
      ⟨String.toList ("99"), String.toList ("3"), String.toList ("7")⟩ [] =
      .error (.fatal ("FATAL : Could not find logfiles")) :=
  (search_fatal_conditions (fun s => s) (fun _ => ⟨"", "", 0, ⟨0, 0⟩⟩)
    ⟨String.toList ("99"), String.toList ("3"), String.toList ("7")⟩ []).1 rfl

/-- Claim C8 counterexample: a log file containing a line with no tab
fields makes the whole pipeline abort with an IndexError, a fatal
condition that is neither of the two explicit messages; so per-line
parse failures are not all non-fatal and the fatal conditions are not
exactly two. -/
theorem search_line_error_fatal :
    search_and_return_log_data (fun s => s) (fun _ => ⟨"", "", 0, ⟨0, 0⟩⟩)
      ⟨String.toList ("99"), String.toList ("3"), String.toList ("7")⟩
      [String.toList ("notab\n")] = .error Err.indexError ∧
    Err.indexError ≠ Err.fatal ("FATAL : Could not find logfiles") ∧
    Err.indexError ≠ Err.fatal ("FATAL: No log data found") := by
  decide


/-! ### The turn-state builder -/

lemma transformFrom_append (ts : List Snapshot) (L1 L2 : List Event) :
    transformFrom ts (L1 ++ L2) =
      match transformFrom ts L1 with
      | .error e => .error e
      | .ok ts1 => transformFrom ts1 L2 := by
  induction L1 generalizing ts with
  | nil => rfl
  | cons x xs ih =>
    simp only [List.cons_append, transformFrom]
    cases transformStep ts x with
    | error er => rfl
    | ok ts1 => exact ih ts1

lemma countT_ge : ∀ (L : List Event) (n : Nat), n ≤ countT n L := by
  intro L
  induction L with
  | nil => intro n; exact Nat.le_refl n
  | cons x xs ih =>
    intro n
    simp only [countT]
    by_cases hc : n ≤ x.turn
    · rw [if_pos hc]
      have := ih (n + 1)
      omega
    · rw [if_neg hc]
      exact ih n

lemma countT_append : ∀ (L1 L2 : List Event) (n : Nat),
    countT n (L1 ++ L2) = countT (countT n L1) L2 := by
  intro L1
  induction L1 with
  | nil => intro L2 n; rfl
  | cons x xs ih => intro L2 n; simp only [List.cons_append, countT]; exact ih L2 _

lemma precondOk_append : ∀ (L1 L2 : List Event) (n : Nat),
    precondOk n (L1 ++ L2) = (precondOk n L1 && precondOk (countT n L1) L2) := by
  intro L1
  induction L1 with
  | nil => intro L2 n; simp [precondOk, countT]
  | cons x xs ih =>
    intro L2 n
    simp only [List.cons_append, precondOk, countT, List.append_eq, ih,
      Bool.and_assoc]

lemma turns_lt : ∀ (L : List Event) (n : Nat), precondOk n L = true →
    ∀ e ∈ L, e.turn < countT n L := by
  intro L
  induction L with
  | nil => intro n _ e he; simp at he
  | cons x xs ih =>
    intro n hpre e he
    simp only [precondOk, Bool.and_eq_true, decide_eq_true_eq] at hpre
    obtain ⟨hx, hrest⟩ := hpre
    have hge := countT_ge xs (if n ≤ x.turn then n + 1 else n)
    rcases List.mem_cons.mp he with rfl | he'
    · simp only [countT]
      split at hge
      · rename_i hc
        simp only [if_pos hc]
        omega
      · rename_i hc
        simp only [if_neg hc]
        omega
    · exact ih _ hrest e he'

lemma countT_mem_iff : ∀ (L : List Event) (n : Nat), precondOk n L = true →
    ∀ N, (N < countT n L ↔ N < n ∨ ∃ e ∈ L, e.turn = N) := by
  intro L
  induction L with
  | nil => intro n _ N; simp [countT]
  | cons x xs ih =>
    intro n hpre N
    simp only [precondOk, Bool.and_eq_true, decide_eq_true_eq] at hpre
    obtain ⟨hx, hrest⟩ := hpre
    simp only [countT]
    rw [ih _ hrest N]
    simp only [List.mem_cons]
    constructor
    · rintro (hN | ⟨e, he, het⟩)
      · split at hN
        · rename_i hc
          rcases Nat.lt_succ_iff_lt_or_eq.mp hN with h | h
          · exact Or.inl h
          · exact Or.inr ⟨x, Or.inl rfl, by omega⟩
        · exact Or.inl hN
      · exact Or.inr ⟨e, Or.inr he, het⟩
    · rintro (hN | ⟨e, he, het⟩)
      · left
        split <;> omega
      · rcases he with rfl | he'
        · left
          split <;> omega
        · exact Or.inr ⟨e, he', het⟩

lemma range_map_getElem? {α : Type} (f : Nat → α) (k t : Nat) (ht : t < k) :
    ((List.range k).map f)[t]? = some (f t) := by
  rw [List.getElem?_map, List.getElem?_range ht]
  rfl


lemma relevantAt_append_ne (L : List Event) (e : Event) (i : Nat)
    (h : e.turn ≠ i) : relevantAt (L ++ [e]) i = relevantAt L i := by
  have hb : (e.turn == i) = false := by simp [h]
  simp [relevantAt, List.filter_append, hb]

lemma foodAt_append_ne (L : List Event) (e : Event) (i : Nat)
    (h : e.turn ≠ i) : foodAt (L ++ [e]) i = foodAt L i := by
  have hb : (e.turn == i) = false := by simp [h]
  simp [foodAt, List.filter_append, hb]

lemma relevantAt_append_nonsnake (L : List Event) (e : Event) (i : Nat)
    (h : isSnakeItem e.item = false) :
    relevantAt (L ++ [e]) i = relevantAt L i := by
  simp [relevantAt, List.filter_append, h]

lemma foodAt_append_nonfood (L : List Event) (e : Event) (i : Nat)
    (h : (e.item == ("food")) = false) :
    foodAt (L ++ [e]) i = foodAt L i := by
  simp [foodAt, List.filter_append, h]

lemma relevantAt_append_snake (L : List Event) (e : Event)
    (h : isSnakeItem e.item = true) :
    relevantAt (L ++ [e]) e.turn = relevantAt L e.turn ++ [e] := by
  simp [relevantAt, List.filter_append, h]

lemma foodAt_append_food (L : List Event) (e : Event)
    (h : (e.item == ("food")) = true) :
    foodAt (L ++ [e]) e.turn = foodAt L e.turn ++ [e.coordinates] := by
  simp [foodAt, List.filter_append, h]

lemma relevantAt_eq_nil (L : List Event) (n : Nat)
    (h : ∀ e ∈ L, e.turn < n) : relevantAt L n = [] := by
  apply List.filter_eq_nil_iff.mpr
  intro e he
  have := h e he
  simp only [Bool.and_eq_true, beq_iff_eq, not_and]
  intro _
  omega

lemma foodAt_eq_nil (L : List Event) (n : Nat)
    (h : ∀ e ∈ L, e.turn < n) : foodAt L n = [] := by
  have : L.filter (fun e => e.item == ("food") && e.turn == n) = [] := by
    apply List.filter_eq_nil_iff.mpr
    intro e he
    have := h e he
    simp only [Bool.and_eq_true, beq_iff_eq, not_and]
    intro _
    omega
  simp [foodAt, this]

lemma specSnapshot_append_ne (L : List Event) (e : Event) (i : Nat)
    (h : e.turn ≠ i) : specSnapshot (L ++ [e]) i = specSnapshot L i := by
  simp [specSnapshot, relevantAt_append_ne L e i h, foodAt_append_ne L e i h]

lemma snakesOf_append (es : List Event) (e : Event) :
    snakesOf (es ++ [e]) = addSnakeEvent (snakesOf es) e := by
  simp [snakesOf]

lemma build_set_food (L : List Event) (e : Event) (k : Nat) (ht : e.turn < k)
    (hfood : e.item = ("food")) :
    ((List.range k).map (specSnapshot L)).set e.turn
      ⟨(specSnapshot L e.turn).turn, (specSnapshot L e.turn).height,
        (specSnapshot L e.turn).width, (specSnapshot L e.turn).snakes,
        (specSnapshot L e.turn).food ++ [e.coordinates]⟩ =
    (List.range k).map (specSnapshot (L ++ [e])) := by
  apply List.ext_getElem?
  intro i
  by_cases hik : i < k
  · by_cases hie : i = e.turn
    · subst hie
      rw [List.getElem?_set_eq_of_lt _ (by simp [ht]),
        range_map_getElem? _ k e.turn ht]
      have hsnake : isSnakeItem e.item = false := by
        rw [hfood]; rfl
      have hbf : (e.item == ("food")) = true := by simp [hfood]
      simp [specSnapshot, relevantAt_append_nonsnake L e e.turn hsnake,
        foodAt_append_food L e hbf]
    · rw [List.getElem?_set, if_neg (show ¬e.turn = i by omega)]
      rw [range_map_getElem? _ k i hik, range_map_getElem? _ k i hik,
        specSnapshot_append_ne L e i (show e.turn ≠ i by omega)]
  · have h1 : k ≤ i := by omega
    rw [List.getElem?_eq_none (by simp [List.length_set, h1]),
      List.getElem?_eq_none (by simp [h1])]

lemma build_set_snake (L : List Event) (e : Event) (k : Nat) (ht : e.turn < k)
    (hsnake : isSnakeItem e.item = true) :
    ((List.range k).map (specSnapshot L)).set e.turn
      ⟨(specSnapshot L e.turn).turn, (specSnapshot L e.turn).height,
        (specSnapshot L e.turn).width,
        addSnakeEvent (specSnapshot L e.turn).snakes e,
        (specSnapshot L e.turn).food⟩ =
    (List.range k).map (specSnapshot (L ++ [e])) := by
  apply List.ext_getElem?
  intro i
  by_cases hik : i < k
  · by_cases hie : i = e.turn
    · subst hie
      rw [List.getElem?_set_eq_of_lt _ (by simp [ht]),
        range_map_getElem? _ k e.turn ht]
      have hbf : (e.item == ("food")) = false := by
        cases hfe : (e.item == ("food"))
        · rfl
        · have hf : e.item = ("food") := by simpa using hfe
          rw [hf] at hsnake
          exact absurd hsnake (by decide)
      simp [specSnapshot, relevantAt_append_snake L e hsnake,
        foodAt_append_nonfood L e e.turn hbf, snakesOf_append]
    · rw [List.getElem?_set, if_neg (show ¬e.turn = i by omega)]
      rw [range_map_getElem? _ k i hik, range_map_getElem? _ k i hik,
        specSnapshot_append_ne L e i (show e.turn ≠ i by omega)]
  · have h1 : k ≤ i := by omega
    rw [List.getElem?_eq_none (by simp [List.length_set, h1]),
      List.getElem?_eq_none (by simp [h1])]

lemma build_irrelevant (L : List Event) (e : Event) (k : Nat)
    (hfood : (e.item == ("food")) = false) (hsnake : isSnakeItem e.item = false) :
    (List.range k).map (specSnapshot (L ++ [e])) =
      (List.range k).map (specSnapshot L) := by
  apply List.map_congr_left
  intro i _
  simp [specSnapshot, relevantAt_append_nonsnake L e i hsnake,
    foodAt_append_nonfood L e i hfood]


lemma isSnakeItem_iff (it : String) : isSnakeItem it = true ↔
    (it = ("head") ∨ it = ("tail") ∨ it = ("body")) := by
  simp [isSnakeItem, or_assoc]

lemma transformStep_spec (L : List Event) (e : Event)
    (hpreL : precondOk 0 L = true) (hturn : e.turn ≤ countT 0 L) :
    transformStep (specBuild L) e = .ok (specBuild (L ++ [e])) := by
  have hlen : (specBuild L).length = countT 0 L := by simp [specBuild]
  have hallt : ∀ e' ∈ L, e'.turn < countT 0 L := turns_lt L 0 hpreL
  by_cases hA : e.turn = countT 0 L
  · have hcreate : (specBuild L).length ≤ e.turn := by omega
    have hrel_nil : relevantAt L e.turn = [] :=
      relevantAt_eq_nil L e.turn (by intro e' he'; have := hallt e' he'; omega)
    have hfood_nil : foodAt L e.turn = [] :=
      foodAt_eq_nil L e.turn (by intro e' he'; have := hallt e' he'; omega)
    have hentry : (⟨e.turn, 10, 10, [], []⟩ : Snapshot) = specSnapshot L e.turn := by
      simp [specSnapshot, hrel_nil, hfood_nil, snakesOf]
    have hT1 : specBuild L ++ [(⟨e.turn, 10, 10, [], []⟩ : Snapshot)] =
        (List.range (countT 0 L + 1)).map (specSnapshot L) := by
      rw [hentry, hA]
      simp [specBuild, List.range_succ]
    have hcount : countT 0 (L ++ [e]) = countT 0 L + 1 := by
      rw [countT_append]
      simp only [countT]
      rw [if_pos (by omega)]
    simp only [transformStep, if_pos hcreate, hT1]
    by_cases hfood : e.item = ("food")
    · rw [if_pos hfood, range_map_getElem? _ _ e.turn (by omega)]
      dsimp only
      rw [build_set_food L e (countT 0 L + 1) (by omega) hfood]
      rw [specBuild, hcount]
    · by_cases hsnk : e.item = ("head") ∨ e.item = ("tail") ∨ e.item = ("body")
      · rw [if_neg hfood, if_pos hsnk, range_map_getElem? _ _ e.turn (by omega)]
        dsimp only
        have hsb : isSnakeItem e.item = true := (isSnakeItem_iff e.item).mpr hsnk
        rw [build_set_snake L e (countT 0 L + 1) (by omega) hsb]
        rw [specBuild, hcount]
      · rw [if_neg hfood, if_neg hsnk]
        have hbf : (e.item == ("food")) = false := by simp [hfood]
        have hbs : isSnakeItem e.item = false := by
          cases hv : isSnakeItem e.item
          · rfl
          · exact absurd ((isSnakeItem_iff e.item).mp hv) hsnk
        rw [specBuild, hcount, build_irrelevant L e _ hbf hbs]
  · have hB : e.turn < countT 0 L := by omega
    have hnocreate : ¬((specBuild L).length ≤ e.turn) := by omega
    have hcount : countT 0 (L ++ [e]) = countT 0 L := by
      rw [countT_append]
      simp only [countT]
      rw [if_neg (by omega)]
    simp only [transformStep, if_neg hnocreate]
    rw [show specBuild L = (List.range (countT 0 L)).map (specSnapshot L) from rfl]
    by_cases hfood : e.item = ("food")
    · rw [if_pos hfood, range_map_getElem? _ _ e.turn (by omega)]
      dsimp only
      rw [build_set_food L e (countT 0 L) (by omega) hfood]
      rw [specBuild, hcount]
    · by_cases hsnk : e.item = ("head") ∨ e.item = ("tail") ∨ e.item = ("body")
      · rw [if_neg hfood, if_pos hsnk, range_map_getElem? _ _ e.turn (by omega)]
        dsimp only
        have hsb : isSnakeItem e.item = true := (isSnakeItem_iff e.item).mpr hsnk
        rw [build_set_snake L e (countT 0 L) (by omega) hsb]
        rw [specBuild, hcount]
      · rw [if_neg hfood, if_neg hsnk]
        have hbf : (e.item == ("food")) = false := by simp [hfood]
        have hbs : isSnakeItem e.item = false := by
          cases hv : isSnakeItem e.item
          · rfl
          · exact absurd ((isSnakeItem_iff e.item).mp hv) hsnk
        rw [specBuild, hcount, build_irrelevant L e _ hbf hbs]

lemma transform_spec : ∀ (L : List Event), precondOk 0 L = true →
    transform L = .ok (specBuild L) := by
  intro L
  induction L using List.reverseRecOn with
  | nil => intro _; rfl
  | append_singleton L e ih =>
    intro hpre
    rw [precondOk_append, Bool.and_eq_true] at hpre
    obtain ⟨h1, h2⟩ := hpre
    simp only [precondOk, Bool.and_true, decide_eq_true_eq] at h2
    show transformFrom [] (L ++ [e]) = _
    rw [transformFrom_append,
      show transformFrom [] L = .ok (specBuild L) from ih h1]
    dsimp only
    simp only [transformFrom]
    rw [transformStep_spec L e h1 h2]


lemma indexingItem_iff (it : String) : indexingItem it = true ↔
    (it = ("food") ∨ it = ("head") ∨ it = ("tail") ∨ it = ("body")) := by
  simp [indexingItem, isSnakeItem, or_assoc]

lemma transformStep_length (ts : List Snapshot) (e : Event) (ts1 : List Snapshot)
    (h : transformStep ts e = .ok ts1) :
    ts1.length = if ts.length ≤ e.turn then ts.length + 1 else ts.length := by
  simp only [transformStep] at h
  by_cases hfood : e.item = ("food")
  · rw [if_pos hfood] at h
    cases hm : (if ts.length ≤ e.turn then ts ++ [⟨e.turn, 10, 10, [], []⟩]
        else ts)[e.turn]? with
    | none => rw [hm] at h; exact Except.noConfusion h
    | some snap =>
      rw [hm] at h
      have hts1 := Except.ok.inj h
      subst hts1
      rw [List.length_set]
      split <;> simp
  · rw [if_neg hfood] at h
    by_cases hsnk : e.item = ("head") ∨ e.item = ("tail") ∨ e.item = ("body")
    · rw [if_pos hsnk] at h
      cases hm : (if ts.length ≤ e.turn then ts ++ [⟨e.turn, 10, 10, [], []⟩]
          else ts)[e.turn]? with
      | none => rw [hm] at h; exact Except.noConfusion h
      | some snap =>
        rw [hm] at h
        have hts1 := Except.ok.inj h
        subst hts1
        rw [List.length_set]
        split <;> simp
    · rw [if_neg hsnk] at h
      have hts1 := Except.ok.inj h
      subst hts1
      split <;> simp

lemma transformFrom_ok_precond :
    ∀ (L : List Event) (ts : List Snapshot),
      (∀ e ∈ L, indexingItem e.item = true) →
      ∀ ts', transformFrom ts L = .ok ts' → precondOk ts.length L = true := by
  intro L
  induction L with
  | nil => intro ts _ ts' _; rfl
  | cons e es ih =>
    intro ts hitems ts' hok
    have hitem : indexingItem e.item = true :=
      hitems e (List.mem_cons_self e es)
    cases hstep : transformStep ts e with
    | error er =>
      simp only [transformFrom, hstep] at hok
      exact Except.noConfusion hok
    | ok ts1 =>
      simp only [transformFrom, hstep] at hok
      have hle : e.turn ≤ ts.length := by
        by_contra hgt
        push_neg at hgt
        have hcreate : ts.length ≤ e.turn := by omega
        have hnone : (ts ++ [(⟨e.turn, 10, 10, [], []⟩ : Snapshot)])[e.turn]? =
            none := by
          apply List.getElem?_eq_none
          simp only [List.length_append, List.length_cons, List.length_nil]
          omega
        simp only [transformStep, if_pos hcreate, hnone] at hstep
        rcases (indexingItem_iff e.item).mp hitem with hP | hQ
        · rw [if_pos hP] at hstep
          exact Except.noConfusion hstep
        · have hnP : ¬e.item = ("food") := by
            rcases hQ with h | h | h <;> rw [h] <;> decide
          rw [if_neg hnP, if_pos hQ] at hstep
          exact Except.noConfusion hstep
      have hlen1 := transformStep_length ts e ts1 hstep
      simp only [precondOk, Bool.and_eq_true, decide_eq_true_eq]
      refine ⟨hle, ?_⟩
      have hrec := ih ts1 (fun x hx => hitems x (List.mem_cons_of_mem e hx))
        ts' hok
      rwa [hlen1] at hrec

/-- Claim C9: over event lists drawn from the documented item vocabulary
(`food`, `head`, `tail`, `body` — the items on which the builder
subscripts `turns[turn]`), `transform` completes without error exactly
when, at every event in processing order, the turn value is at most the
number of snapshots already created; any violating input (for example a
single event with turn 1, or any turn gap) aborts with the
out-of-range indexing error instead of skipping the event or creating
the missing snapshots. -/
theorem transform_ok_iff_precond (L : List Event)
    (hit : ∀ e ∈ L, indexingItem e.item = true) :
    isSuccess (transform L) = true ↔ precondOk 0 L = true := by
  constructor
  · intro h
    cases hres : transform L with
    | error e =>
      rw [hres] at h
      exact absurd h (by simp [isSuccess])
    | ok ts => exact transformFrom_ok_precond L [] hit ts hres
  · intro h
    rw [transform_spec L h]
    rfl

/-- Claim C9 witness: the one-element list whose single food event has
turn 1 violates the precondition, and `transform` indeed aborts on
it: both sides of the equivalence are false there. -/
theorem transform_ok_iff_precond_witness :
    isSuccess (transform [⟨"a", "food", 1, ⟨0, 0⟩⟩]) = true ↔
      precondOk 0 [⟨"a", "food", 1, ⟨0, 0⟩⟩] = true :=
  transform_ok_iff_precond [⟨"a", "food", 1, ⟨0, 0⟩⟩] (by decide)


lemma firstIds_append : ∀ (es1 es2 : List Event) (acc : List String),
    firstIds acc (es1 ++ es2) = firstIds (firstIds acc es1) es2 := by
  intro es1
  induction es1 with
  | nil => intro es2 acc; rfl
  | cons x xs ih =>
    intro es2 acc
    simp only [List.cons_append, firstIds]
    exact ih es2 _

lemma mem_firstIds : ∀ (es : List Event) (acc : List String) (w : String),
    w ∈ firstIds acc es ↔ w ∈ acc ∨ ∃ e ∈ es, e.who = w := by
  intro es
  induction es with
  | nil => intro acc w; simp [firstIds]
  | cons x xs ih =>
    intro acc w
    simp only [firstIds]
    rw [ih]
    by_cases hx : x.who ∈ acc
    · rw [if_pos hx]
      constructor
      · rintro (h | ⟨e, he, hw⟩)
        · exact Or.inl h
        · exact Or.inr ⟨e, List.mem_cons_of_mem x he, hw⟩
      · rintro (h | ⟨e, he, hw⟩)
        · exact Or.inl h
        · rcases List.mem_cons.mp he with rfl | he'
          · exact Or.inl (hw ▸ hx)
          · exact Or.inr ⟨e, he', hw⟩
    · rw [if_neg hx]
      constructor
      · rintro (hmem | ⟨e, he, hw⟩)
        · rcases List.mem_append.mp hmem with h | h
          · exact Or.inl h
          · have hxw : w = x.who := by simpa using h
            exact Or.inr ⟨x, List.mem_cons_self x xs, hxw.symm⟩
        · exact Or.inr ⟨e, List.mem_cons_of_mem x he, hw⟩
      · rintro (h | ⟨e, he, hw⟩)
        · exact Or.inl (List.mem_append.mpr (Or.inl h))
        · rcases List.mem_cons.mp he with rfl | he'
          · exact Or.inl (List.mem_append.mpr (Or.inr
              (List.mem_singleton.mpr hw.symm)))
          · exact Or.inr ⟨e, he', hw⟩

lemma firstIds_nodup : ∀ (es : List Event) (acc : List String), acc.Nodup →
    (firstIds acc es).Nodup := by
  intro es
  induction es with
  | nil => intro acc h; exact h
  | cons x xs ih =>
    intro acc h
    simp only [firstIds]
    by_cases hx : x.who ∈ acc
    · rw [if_pos hx]
      exact ih acc h
    · rw [if_neg hx]
      apply ih
      simp [List.nodup_append, h, hx]

lemma updFirst_map (f : String → Snake) (hid : ∀ v, (f v).id = v) :
    ∀ (F : List String) (who : String) (seg : Seg), F.Nodup →
      updFirst who seg (F.map f) =
        F.map (fun v => if v = who then
          ⟨(f v).id, (f v).data ++ [seg], (f v).length, (f v).health⟩
        else f v) := by
  intro F
  induction F with
  | nil => intro who seg _; rfl
  | cons v F' ih =>
    intro who seg hnd
    simp only [List.map_cons, updFirst]
    by_cases hv : v = who
    · subst hv
      rw [if_pos (hid v), if_pos rfl]
      congr 1
      have hvn : v ∉ F' := (List.nodup_cons.mp hnd).1
      symm
      apply List.map_congr_left
      intro u hu
      rw [if_neg (by intro h; exact hvn (h ▸ hu))]
    · rw [if_neg (by rw [hid v]; exact hv), if_neg hv]
      congr 1
      exact ih who seg (List.nodup_cons.mp hnd).2

lemma snakeFor_append_ne (es : List Event) (e : Event) (w : String)
    (h : w ≠ e.who) : snakeFor (es ++ [e]) w = snakeFor es w := by
  have hb : (e.who == w) = false := by
    simp only [beq_eq_false_iff_ne]
    exact fun hc => h hc.symm
  simp [snakeFor, List.filter_append, hb]

lemma snakesOf_eq_map : ∀ (es : List Event),
    snakesOf es = (firstIds [] es).map (snakeFor es) := by
  intro es
  induction es using List.reverseRecOn with
  | nil => rfl
  | append_singleton es e ih =>
    rw [snakesOf_append, ih, firstIds_append]
    simp only [firstIds]
    by_cases hin : e.who ∈ firstIds [] es
    · rw [if_pos hin]
      have hmem : snakeFor es e.who ∈ (firstIds [] es).map (snakeFor es) :=
        List.mem_map.mpr ⟨e.who, hin, rfl⟩
      have hfilter_ne : ((firstIds [] es).map (snakeFor es)).filter
          (fun s => s.id == e.who) ≠ [] := by
        intro hc
        have hmf : snakeFor es e.who ∈ ((firstIds [] es).map (snakeFor es)).filter
            (fun s => s.id == e.who) :=
          List.mem_filter.mpr ⟨hmem, by simp [snakeFor]⟩
        rw [hc] at hmf
        simp at hmf
      have hlen : ¬(((firstIds [] es).map (snakeFor es)).filter
          (fun s => s.id == e.who)).length = 0 := by
        intro hc
        exact hfilter_ne (List.length_eq_zero.mp hc)
      simp only [addSnakeEvent, if_neg hlen]
      rw [updFirst_map (snakeFor es) (fun v => rfl) _ e.who (segOf e)
        (firstIds_nodup es [] List.nodup_nil)]
      apply List.map_congr_left
      intro v hv
      by_cases hve : v = e.who
      · subst hve
        rw [if_pos rfl]
        simp [snakeFor, List.filter_append]
      · rw [if_neg hve, snakeFor_append_ne es e v hve]
    · rw [if_neg hin]
      have hfilter_nil : ((firstIds [] es).map (snakeFor es)).filter
          (fun s => s.id == e.who) = [] := by
        apply List.filter_eq_nil_iff.mpr
        intro s hs
        obtain ⟨v, hv, rfl⟩ := List.mem_map.mp hs
        simp only [snakeFor, beq_iff_eq]
        intro hc
        exact hin (hc ▸ hv)
      have hcond : (((firstIds [] es).map (snakeFor es)).filter
          (fun s => s.id == e.who)).length = 0 := by
        rw [hfilter_nil]
        rfl
      simp only [addSnakeEvent, if_pos hcond]
      rw [List.map_append]
      congr 1
      · apply List.map_congr_left
        intro v hv
        exact (snakeFor_append_ne es e v (fun hc => hin (hc ▸ hv))).symm
      · have hnil : es.filter (fun x => x.who == e.who) = [] := by
          apply List.filter_eq_nil_iff.mpr
          intro x hx
          simp only [beq_iff_eq]
          intro hc
          exact hin ((mem_firstIds es [] e.who).mpr (Or.inr ⟨x, hx, hc⟩))
        simp [snakeFor, List.filter_append, hnil, segOf]

lemma snakesOf_mem_iff (es : List Event) (w : String) (g : Seg) :
    (∃ sn, sn ∈ snakesOf es ∧ sn.id = w ∧ g ∈ sn.data) ↔
      (∃ e, e ∈ es ∧ e.who = w ∧ segOf e = g) := by
  rw [snakesOf_eq_map]
  constructor
  · rintro ⟨sn, hmem, hid, hg⟩
    obtain ⟨v, hv, rfl⟩ := List.mem_map.mp hmem
    have hvw : v = w := hid
    subst hvw
    obtain ⟨e, he, rfl⟩ := List.mem_map.mp hg
    have hef := List.mem_filter.mp he
    exact ⟨e, hef.1, by simpa using hef.2, rfl⟩
  · rintro ⟨e, he, hw, hg⟩
    refine ⟨snakeFor es w, ?_, rfl, ?_⟩
    · exact List.mem_map.mpr ⟨w, (mem_firstIds es [] w).mpr
        (Or.inr ⟨e, he, hw⟩), rfl⟩
    · exact List.mem_map.mpr ⟨e, List.mem_filter.mpr ⟨he, by simp [hw]⟩, hg⟩


/-- Claim C4 (amended): under the no-abort precondition (every event in
processing order has a turn value at most the number of snapshots
already created), a snapshot for turn N exists after processing a prefix
exactly when the prefix contains an event with turn N — so it is created
exactly at the first such event — the snapshot at index i carries turn
i, and board width and height are 10 in every snapshot, fixed at
creation and never updated.  The amendment: without the precondition the
claim is false; with a turn gap the builder either aborts (C9) or, for
events with unrecognized items, creates one fresh snapshot per event
with the same turn field, so snapshots are not created exactly at the
first event of their turn, and orders whose first event has a positive
turn abort before later turns are ever seen. -/
theorem transform_snapshot_creation (L : List Event)
    (hpre : precondOk 0 L = true) :
    ∀ P S, L = P ++ S →
      ∃ ts, transform P = .ok ts ∧
        (∀ N : Nat, N < ts.length ↔ ∃ e ∈ P, e.turn = N) ∧
        (∀ (i : Nat) (s : Snapshot), ts[i]? = some s →
          s.turn = i ∧ s.width = 10 ∧ s.height = 10) := by
  intro P S hPS
  have hpreP : precondOk 0 P = true := by
    subst hPS
    rw [precondOk_append, Bool.and_eq_true] at hpre
    exact hpre.1
  refine ⟨specBuild P, transform_spec P hpreP, ?_, ?_⟩
  · intro N
    have hlen : (specBuild P).length = countT 0 P := by simp [specBuild]
    rw [hlen]
    have hiff := countT_mem_iff P 0 hpreP N
    simpa using hiff
  · intro i s hs
    simp only [specBuild] at hs
    rw [List.getElem?_map] at hs
    cases hr : (List.range (countT 0 P))[i]? with
    | none =>
      rw [hr] at hs
      exact Option.noConfusion hs
    | some j =>
      rw [hr] at hs
      have hj : j = i := by
        rcases Nat.lt_or_ge i (countT 0 P) with hlt | hge
        · rw [List.getElem?_range hlt] at hr
          exact (Option.some_inj.mp hr).symm
        · rw [List.getElem?_eq_none (by simpa using hge)] at hr
          exact Option.noConfusion hr
      subst hj
      have hsv := Option.some_inj.mp hs
      rw [← hsv]
      exact ⟨rfl, rfl, rfl⟩

/-- Claim C4 witness: the amended statement evaluated on the one-element
list whose event has turn 0, taking the whole list as the prefix. -/
theorem transform_snapshot_creation_witness :
    ∃ ts, transform ([⟨"a", "food", 0, ⟨1, 2⟩⟩] : List Event) = .ok ts ∧
      (∀ N : Nat, N < ts.length ↔
        ∃ e ∈ ([⟨"a", "food", 0, ⟨1, 2⟩⟩] : List Event), e.turn = N) ∧
      (∀ (i : Nat) (s : Snapshot), ts[i]? = some s →
        s.turn = i ∧ s.width = 10 ∧ s.height = 10) :=
  transform_snapshot_creation ([⟨"a", "food", 0, ⟨1, 2⟩⟩] : List Event)
    (by decide) ([⟨"a", "food", 0, ⟨1, 2⟩⟩] : List Event) [] (by simp)

/-- Claim C4 counterexample: two events with an unrecognized item and
turn 3 each create a fresh snapshot carrying turn 3 — the second is not
the first event whose turn equals 3, and turns 0 to 2 never get
snapshots — so snapshot creation is not "exactly at the first event
whose turn field equals N, regardless of order and gaps" as claimed. -/
theorem transform_duplicate_snapshots :
    transform [⟨"a", "zzz", 3, ⟨0, 0⟩⟩, ⟨"a", "zzz", 3, ⟨0, 0⟩⟩] =
      .ok [⟨3, 10, 10, [], []⟩, ⟨3, 10, 10, [], []⟩] := by decide

/-- Claim C5 (amended): for any two orderings of the same payload
multiset that both satisfy the no-abort precondition, `transform`
succeeds on both and produces, for every turn index, the same set of
food coordinates and the same set of segments per snake; only the
sequence order inside the lists may differ.  The amendment: the claim as
stated quantifies over every permutation, but most reorderings violate
the precondition and abort instead of producing snapshots. -/
theorem transform_perm_sets (L L' : List Event) (hperm : L.Perm L')
    (h1 : precondOk 0 L = true) (h2 : precondOk 0 L' = true) :
    ∃ ts ts', transform L = .ok ts ∧ transform L' = .ok ts' ∧
      ts.length = ts'.length ∧
      (∀ (i : Nat) (s s' : Snapshot), ts[i]? = some s → ts'[i]? = some s' →
        ((∀ c : Coord, c ∈ s.food ↔ c ∈ s'.food) ∧
         (∀ (w : String) (g : Seg),
            (∃ sn, sn ∈ s.snakes ∧ sn.id = w ∧ g ∈ sn.data) ↔
            (∃ sn, sn ∈ s'.snakes ∧ sn.id = w ∧ g ∈ sn.data)))) := by
  refine ⟨specBuild L, specBuild L', transform_spec L h1, transform_spec L' h2,
    ?_, ?_⟩
  · have hiff : ∀ N, N < countT 0 L ↔ N < countT 0 L' := by
      intro N
      rw [countT_mem_iff L 0 h1 N, countT_mem_iff L' 0 h2 N]
      simp only [Nat.not_lt_zero, false_or]
      constructor
      · rintro ⟨e, he, ht⟩
        exact ⟨e, hperm.mem_iff.mp he, ht⟩
      · rintro ⟨e, he, ht⟩
        exact ⟨e, hperm.mem_iff.mpr he, ht⟩
    have hceq : countT 0 L = countT 0 L' := by
      by_contra hne
      rcases Nat.lt_or_ge (countT 0 L) (countT 0 L') with h | h
      · have := (hiff (countT 0 L)).mpr h
        omega
      · rcases Nat.lt_or_ge (countT 0 L') (countT 0 L) with h' | h'
        · have := (hiff (countT 0 L')).mp h'
          omega
        · omega
    simp [specBuild, hceq]
  · intro i s s' hs hs'
    have hsv : s = specSnapshot L i := by
      simp only [specBuild] at hs
      rw [List.getElem?_map] at hs
      cases hr : (List.range (countT 0 L))[i]? with
      | none => rw [hr] at hs; exact Option.noConfusion hs
      | some j =>
        rw [hr] at hs
        have hj : j = i := by
          rcases Nat.lt_or_ge i (countT 0 L) with hlt | hge
          · rw [List.getElem?_range hlt] at hr
            exact (Option.some_inj.mp hr).symm
          · rw [List.getElem?_eq_none (by simpa using hge)] at hr
            exact Option.noConfusion hr
        subst hj
        exact (Option.some_inj.mp hs).symm
    have hsv' : s' = specSnapshot L' i := by
      simp only [specBuild] at hs'
      rw [List.getElem?_map] at hs'
      cases hr : (List.range (countT 0 L'))[i]? with
      | none => rw [hr] at hs'; exact Option.noConfusion hs'
      | some j =>
        rw [hr] at hs'
        have hj : j = i := by
          rcases Nat.lt_or_ge i (countT 0 L') with hlt | hge
          · rw [List.getElem?_range hlt] at hr
            exact (Option.some_inj.mp hr).symm
          · rw [List.getElem?_eq_none (by simpa using hge)] at hr
            exact Option.noConfusion hr
        subst hj
        exact (Option.some_inj.mp hs').symm
    subst hsv
    subst hsv'
    constructor
    · intro c
      show c ∈ foodAt L i ↔ c ∈ foodAt L' i
      simp only [foodAt, List.mem_map, List.mem_filter]
      constructor
      · rintro ⟨e, ⟨he, hcond⟩, hc⟩
        exact ⟨e, ⟨hperm.mem_iff.mp he, hcond⟩, hc⟩
      · rintro ⟨e, ⟨he, hcond⟩, hc⟩
        exact ⟨e, ⟨hperm.mem_iff.mpr he, hcond⟩, hc⟩
    · intro w g
      show (∃ sn, sn ∈ snakesOf (relevantAt L i) ∧ sn.id = w ∧ g ∈ sn.data) ↔
        (∃ sn, sn ∈ snakesOf (relevantAt L' i) ∧ sn.id = w ∧ g ∈ sn.data)
      rw [snakesOf_mem_iff, snakesOf_mem_iff]
      simp only [relevantAt, List.mem_filter]
      constructor
      · rintro ⟨e, ⟨he, hcond⟩, hw, hg⟩
        exact ⟨e, ⟨hperm.mem_iff.mp he, hcond⟩, hw, hg⟩
      · rintro ⟨e, ⟨he, hcond⟩, hw, hg⟩
        exact ⟨e, ⟨hperm.mem_iff.mpr he, hcond⟩, hw, hg⟩

/-- Claim C5 witness: the amended statement on two orderings of two
turn-0 food events, both of which satisfy the precondition. -/
theorem transform_perm_sets_witness :
    ∃ ts ts',
      transform ([⟨"a", "food", 0, ⟨1, 1⟩⟩, ⟨"a", "food", 0, ⟨2, 2⟩⟩] :
        List Event) = .ok ts ∧
      transform ([⟨"a", "food", 0, ⟨2, 2⟩⟩, ⟨"a", "food", 0, ⟨1, 1⟩⟩] :
        List Event) = .ok ts' ∧
      ts.length = ts'.length ∧
      (∀ (i : Nat) (s s' : Snapshot), ts[i]? = some s → ts'[i]? = some s' →
        ((∀ c : Coord, c ∈ s.food ↔ c ∈ s'.food) ∧
         (∀ (w : String) (g : Seg),
            (∃ sn, sn ∈ s.snakes ∧ sn.id = w ∧ g ∈ sn.data) ↔
            (∃ sn, sn ∈ s'.snakes ∧ sn.id = w ∧ g ∈ sn.data)))) :=
  transform_perm_sets _ _ (by decide) (by decide) (by decide)

/-- Claim C5 counterexample: reordering the two food events of turns 0
and 1 makes `transform` abort with an indexing error instead of
producing snapshots with identical food sets, so the claim as stated
(for every permutation) is false on the code. -/
theorem transform_perm_abort :
    transform [⟨"a", "food", 0, ⟨1, 1⟩⟩, ⟨"a", "food", 1, ⟨2, 2⟩⟩] =
      .ok [⟨0, 10, 10, [], [⟨1, 1⟩]⟩, ⟨1, 10, 10, [], [⟨2, 2⟩]⟩] ∧
    transform [⟨"a", "food", 1, ⟨2, 2⟩⟩, ⟨"a", "food", 0, ⟨1, 1⟩⟩] =
      .error Err.indexError ∧
    ([⟨"a", "food", 1, ⟨2, 2⟩⟩, ⟨"a", "food", 0, ⟨1, 1⟩⟩] : List Event).Perm
      [⟨"a", "food", 0, ⟨1, 1⟩⟩, ⟨"a", "food", 1, ⟨2, 2⟩⟩] := by
  decide

end SonOfRobosnake

